import Mathlib

/-!
# Verification of the lazyissues core runtime

A shallow embedding, in Lean 4, of the core runtime of the `lazyissues`
terminal dashboard:

* `src/ui/ui_stack.rs` — the `UiStack` panel registry (a `BTreeMap<u8, _>`
  of panels keyed by priority plus a `HashMap<String, u8>` name index),
* `src/ui.rs` — the orchestrator (`Ui::tick`, `Ui::send_request`,
  `Ui::handle_input`, `Ui::request_all`, `Ui::open_remote_explorer`),
* `src/lib.rs` — the input/tick scheduler (`EventLoop::run`),
* `src/config.rs` — the credential resolution chain
  (`Config::get_access_token`, `Config::wait_for_credential_output`),
* `src/ui/remote_explorer.rs` — the remote picker modal.

`BTreeMap<u8, V>` is modelled as an association list sorted strictly by key,
`HashMap<String, u8>` as an association list with distinct keys (insertion
replaces in place; iteration order of the Rust `HashMap` is arbitrary, the
model fixes list order).  Rust `u8` arithmetic is modelled on `Nat` with an
explicit `% 256` at each arithmetic step, and the embedding additionally
records, as a `Bool`, whenever a computed `u8` sum exceeds 255 (the point
where release builds wrap and debug builds panic).  External effects
(terminal polling, the OS keyring, the credential-helper subprocess, git,
the network, channel sends) are parameters of the embedded functions;
effects produced by the code (spawned threads, channel sends, log lines,
`RepositoryState.set` calls) are returned explicitly.
-/

namespace Lazyissues


/-- Modulus of Rust `u8` arithmetic. -/
def u8Mod : Nat := 256

/-! ## Panels

`PanelElement` (src/ui.rs lines 47-64) is a trait; the stack stores trait
objects.  For stack-level reasoning a panel is modelled by the state the
concrete implementations carry: a focus flag (`is_focused` in the list,
detail and remote-explorer views), whether `set_focus` reports success
(`true` for all views, `false` for `Ui` itself), a quit flag
(`wants_to_quit`), and an opaque payload updated by `update`. -/
structure Panel where
  accepts : Bool
  focused : Bool
  quitFlag : Bool
  payload : Option Nat
deriving DecidableEq, Repr, Inhabited

/-- `PanelElement::set_focus`: the accepting implementations
(list/detail/remote views) store the flag and return `true`;
the refusing one (`Ui`) leaves its state alone and returns `false`. -/
def Panel.set_focus (p : Panel) (state : Bool) : Panel × Bool :=
  if p.accepts then ({ p with focused := state }, true) else (p, false)

/-- `PanelElement::update`: store the delivered payload.
The returned `Bool` is ignored by every caller in the repository. -/
def Panel.update (p : Panel) (data : Nat) : Panel × Bool :=
  ({ p with payload := some data }, true)

/-! ## `BTreeMap<u8, V>` model: association list sorted strictly by key. -/

/-- `BTreeMap::insert`: replace the binding of `k` if present, keeping the
list sorted by key. -/
def btreeInsert {α : Type} (k : Nat) (v : α) : List (Nat × α) → List (Nat × α)
  | [] => [(k, v)]
  | (k', v') :: rest =>
    if k < k' then (k, v) :: (k', v') :: rest
    else if k = k' then (k, v) :: rest
    else (k', v') :: btreeInsert k v rest

/-- `BTreeMap::remove`: drop the binding of `k`, if any. -/
def btreeRemove {α : Type} (k : Nat) : List (Nat × α) → List (Nat × α)
  | [] => []
  | (k', v') :: rest => if k = k' then rest else (k', v') :: btreeRemove k rest

/-- `BTreeMap::get`. -/
def btreeGet {α : Type} (k : Nat) : List (Nat × α) → Option α
  | [] => none
  | (k', v) :: rest => if k = k' then some v else btreeGet k rest

/-! ## `HashMap<String, u8>` model: association list with distinct keys. -/

/-- `HashMap::insert`: replace in place, or append. -/
def hashInsert (k : String) (v : Nat) : List (String × Nat) → List (String × Nat)
  | [] => [(k, v)]
  | (k', v') :: rest =>
    if k = k' then (k, v) :: rest else (k', v') :: hashInsert k v rest

/-- `HashMap::get`. -/
def hashGet (k : String) : List (String × Nat) → Option Nat
  | [] => none
  | (k', v) :: rest => if k = k' then some v else hashGet k rest

/-- `HashMap::remove`. -/
def hashRemove (k : String) : List (String × Nat) → List (String × Nat)
  | [] => []
  | (k', v') :: rest => if k = k' then rest else (k', v') :: hashRemove k rest

/-! ## The `UiStack` (src/ui/ui_stack.rs) -/

/-- `UiStack`: `panels: BTreeMap<u8, (Box<dyn PanelElement>, String)>`
and `panel_names: HashMap<String, u8>`. -/
structure UiStack where
  panels : List (Nat × Panel × String)
  panel_names : List (String × Nat)
deriving DecidableEq, Repr

/-- `UiStack::new`. -/
def UiStack.new : UiStack := ⟨[], []⟩

/-- `UiStack::add_panel` (lines 30-38): unconditionally insert the
name→priority binding and the priority→panel binding.  The `% u8Mod`
reflects the `u8` type of the `priority` parameter. -/
def UiStack.add_panel (s : UiStack) (panel : Panel) (priority : Nat) (name : String) :
    UiStack :=
  { panel_names := hashInsert name (priority % u8Mod) s.panel_names,
    panels := btreeInsert (priority % u8Mod) (panel, name) s.panels }

/-- `UiStack::remove_panel` (lines 48-51): `panel_names.retain(|_, &mut p| p != priority)`
followed by `panels.remove(&priority)`. -/
def UiStack.remove_panel (s : UiStack) (priority : Nat) : UiStack :=
  { panel_names := s.panel_names.filter (fun kv => kv.2 != priority),
    panels := btreeRemove priority s.panels }

/-- `UiStack::remove_panel_by_name` (lines 73-80). -/
def UiStack.remove_panel_by_name (s : UiStack) (name : String) : UiStack :=
  match hashGet name s.panel_names with
  | some priority =>
    { panel_names := hashRemove name s.panel_names,
      panels := btreeRemove priority s.panels }
  | none => s

/-- `UiStack::get_highest_priority` (lines 83-87): last key of the
`BTreeMap`, or `0` when empty. -/
def UiStack.get_highest_priority (s : UiStack) : Nat :=
  match s.panels.getLast? with
  | some kv => kv.1
  | none => 0

/-- `UiStack::set_panel_priority_by_name` (lines 174-196): move the named
panel to `new_priority`, a no-op when the name is unknown, when the
priority is unchanged, or when `new_priority` is already occupied. -/
def UiStack.set_panel_priority_by_name (s : UiStack) (new_priority : Nat) (name : String) :
    UiStack :=
  match hashGet name s.panel_names with
  | some priority =>
    if new_priority = priority then s
    else if (btreeGet new_priority s.panels).isSome then s
    else
      match btreeGet priority s.panels with
      | some entry =>
        { panel_names := hashInsert name new_priority s.panel_names,
          panels := btreeInsert new_priority entry (btreeRemove priority s.panels) }
      | none => s
  | none => s

/-- The body of `UiStack::normalize_priorities` (lines 201-228): pop panels
in ascending key order, re-keying them `0, 1, 2, …` with a `u8` index, and
rebuild the name index by scanning the old `panel_names` for every name
bound to the popped key.  Returns the new panel list, the new name list,
and whether any `index += 1` step exceeded the `u8` range (256 ≤ index+1),
which wraps in release builds and panics in debug builds. -/
def normalizeLoop (names_copy : List (String × Nat)) :
    List (Nat × Panel × String) → Nat → List (Nat × Panel × String) × List (String × Nat) × Bool
  | [], _ => ([], [], false)
  | (old_priority, e) :: rest, index =>
    let tail := normalizeLoop names_copy rest ((index + 1) % u8Mod)
    ((index, e) :: tail.1,
     ((names_copy.filter (fun kv => kv.2 == old_priority)).map (fun kv => (kv.1, index)))
       ++ tail.2.1,
     (decide (u8Mod ≤ index + 1) || tail.2.2))

/-- `UiStack::normalize_priorities`: early return on an empty panel map. -/
def UiStack.normalize_priorities (s : UiStack) : UiStack :=
  if s.panels.isEmpty then s
  else
    { panels := (normalizeLoop s.panel_names s.panels 0).1,
      panel_names := (normalizeLoop s.panel_names s.panels 0).2.1 }

/-- Whether `normalize_priorities` performs a `u8` index increment that
exceeds 255. -/
def UiStack.normalize_overflows (s : UiStack) : Bool :=
  if s.panels.isEmpty then false
  else (normalizeLoop s.panel_names s.panels 0).2.2

/-- Second half of `UiStack::select_panel` (lines 155-169), reached once
`set_focus(true)` succeeded: defocus the current top panel when it is a
different entry, bump the named panel's priority to one above the current
maximum (`u8` addition), and normalize.  The returned flags are the success
flag (`true`) and whether `get_highest_priority() + 1` exceeded the `u8`
range. -/
def selectProceed (s1 : UiStack) (pr : Nat) (name : String) : UiStack × Bool × Bool :=
  let hp := s1.get_highest_priority
  let s2 : UiStack :=
    if pr ≠ hp then
      match btreeGet hp s1.panels with
      | some (old_panel, old_name) =>
        { s1 with
          panels := btreeInsert hp ((old_panel.set_focus false).1, old_name) s1.panels }
      | none => s1
    else s1
  let hp2 := s2.get_highest_priority
  let s3 := s2.set_panel_priority_by_name ((hp2 + 1) % u8Mod) name
  (s3.normalize_priorities, true, decide (u8Mod ≤ hp2 + 1))

/-- `UiStack::select_panel` (lines 139-170), instrumented: returns the new
stack, the success flag, and whether the `get_highest_priority() + 1`
computation exceeded the `u8` range.  Mirrors the source: focus the named
panel (no-op returning `false` when the name is unknown, dangling, or the
panel refuses focus — the in-place `set_focus` mutation is kept), then
proceed as in `selectProceed`. -/
def UiStack.select_panel_full (s : UiStack) (name : String) : UiStack × Bool × Bool :=
  match hashGet name s.panel_names with
  | none => (s, false, false)
  | some pr =>
    match btreeGet pr s.panels with
    | none => (s, false, false)
    | some (panel, entry_name) =>
      let focus_result := panel.set_focus true
      let s1 : UiStack := { s with panels := btreeInsert pr (focus_result.1, entry_name) s.panels }
      if focus_result.2 = false then (s1, false, false)
      else selectProceed s1 pr name

/-- `UiStack::select_panel`, state and success flag only. -/
def UiStack.select_panel (s : UiStack) (name : String) : UiStack × Bool :=
  ((s.select_panel_full name).1, (s.select_panel_full name).2.1)

/-! ## Operation sequences over the stack (claim C1) -/

/-- The stack operations quantified over by the stack invariant claim. -/
inductive StackOp where
  | add (panel : Panel) (priority : Nat) (name : String)
  | removeByPriority (priority : Nat)
  | removeByName (name : String)
  | selectPanel (name : String)
deriving DecidableEq, Repr

/-- Apply one stack operation. -/
def applyOp (s : UiStack) : StackOp → UiStack
  | .add p pr nm => s.add_panel p pr nm
  | .removeByPriority pr => s.remove_panel pr
  | .removeByName nm => s.remove_panel_by_name nm
  | .selectPanel nm => (s.select_panel nm).1

/-- Apply a sequence of stack operations. -/
def applyOps (s : UiStack) (ops : List StackOp) : UiStack := ops.foldl applyOp s

/-- Run a sequence of stack operations from the empty stack. -/
def runOps (ops : List StackOp) : UiStack := applyOps UiStack.new ops

/-- First invariant half of claim C1: no two live entries share a priority. -/
def UiStack.priorities_unique (s : UiStack) : Prop :=
  (s.panels.map Prod.fst).Nodup

/-- Second invariant half of claim C1: the name index maps each live
panel's name to that entry's actual priority. -/
def UiStack.names_consistent (s : UiStack) : Prop :=
  ∀ kv ∈ s.panels, hashGet kv.2.2 s.panel_names = some kv.1

/-- The stack invariant asserted by claim C1. -/
def UiStack.Invariant (s : UiStack) : Prop :=
  s.priorities_unique ∧ s.names_consistent

instance (s : UiStack) : Decidable s.priorities_unique :=
  inferInstanceAs (Decidable (List.Nodup _))

instance (s : UiStack) : Decidable s.names_consistent :=
  inferInstanceAs (Decidable (∀ kv ∈ s.panels, hashGet kv.2.2 s.panel_names = some kv.1))

instance (s : UiStack) : Decidable s.Invariant :=
  inferInstanceAs (Decidable (_ ∧ _))

/-! ## Basic facts about the map models -/

/-- Keys of a `BTreeMap` model. -/
def keysOf {α : Type} (l : List (Nat × α)) : List Nat := l.map Prod.fst

/-- Sortedness invariant of the `BTreeMap` model. -/
def SortedKeys {α : Type} (l : List (Nat × α)) : Prop := List.Sorted (· < ·) (keysOf l)

/-- The key the model's `get_highest_priority` reads: last key, or 0. -/
def keyLast {α : Type} (l : List (Nat × α)) : Nat :=
  match l.getLast? with
  | some kv => kv.1
  | none => 0

/-! ### Facts about the `HashMap` model -/

/-- Keys of the `HashMap` model. -/
def hkeysOf (l : List (String × Nat)) : List String := l.map Prod.fst

/-! ## Well-formedness of a `UiStack`

The invariant actually maintained by the guarded operations: panel keys
sorted (the `BTreeMap` structure), keys in `u8` range, name-index keys
distinct (the `HashMap` structure), and the two maps mutually consistent. -/

/-- The name-index entry `kv` points at a panel entry carrying exactly the
name `kv.1`. -/
def UiStack.backedAt (s : UiStack) (kv : String × Nat) : Prop :=
  Option.map (fun e => e.2) (btreeGet kv.2 s.panels) = some kv.1

/-- Full well-formedness of the stack representation. -/
def UiStack.WF (s : UiStack) : Prop :=
  SortedKeys s.panels ∧
  (∀ kv ∈ s.panels, kv.1 < u8Mod) ∧
  (hkeysOf s.panel_names).Nodup ∧
  s.names_consistent ∧
  (∀ kv ∈ s.panel_names, s.backedAt kv)

instance (s : UiStack) (kv : String × Nat) : Decidable (s.backedAt kv) :=
  inferInstanceAs (Decidable (_ = _))

instance (s : UiStack) : Decidable s.WF := by
  unfold UiStack.WF SortedKeys
  infer_instance

/-! ## Preservation of well-formedness by the stack operations -/

/-- The guard under which `add_panel` preserves consistency: the name and
priority are both fresh, or the call overwrites the same name at its
current priority (the intended placeholder-replacement use). -/
def FreshAdd (s : UiStack) (priority : Nat) (name : String) : Prop :=
  (hashGet name s.panel_names = none ∧ btreeGet (priority % u8Mod) s.panels = none)
  ∨ hashGet name s.panel_names = some (priority % u8Mod)

instance (s : UiStack) (priority : Nat) (name : String) : Decidable (FreshAdd s priority name) :=
  inferInstanceAs (Decidable (_ ∨ _))

/-! ## Canonical form of `normalize_priorities` -/

/-- The stack `normalize_priorities` produces on a well-formed input whose
entries (in ascending priority order) are `entries`: panels re-keyed
`0, 1, 2, …` and the name index listing each entry's name with its new key. -/
def canonicalStack (entries : List (Panel × String)) : UiStack :=
  ⟨entries.enum, entries.enum.map (fun kv => (kv.2.2, kv.1))⟩

/-! ## Invariant over guarded operation sequences (claim C1) -/

/-- The per-operation guard: `add_panel` calls must be fresh or exact
replacements; the other operations are unrestricted. -/
def OpGuard (s : UiStack) : StackOp → Prop
  | .add _ pr nm => FreshAdd s pr nm
  | .removeByPriority _ => True
  | .removeByName _ => True
  | .selectPanel _ => True

instance instDecidableOpGuard (s : UiStack) : (op : StackOp) → Decidable (OpGuard s op)
  | .add _ pr nm => inferInstanceAs (Decidable (FreshAdd s pr nm))
  | .removeByPriority _ => inferInstanceAs (Decidable True)
  | .removeByName _ => inferInstanceAs (Decidable True)
  | .selectPanel _ => inferInstanceAs (Decidable True)

/-- Every operation of the sequence satisfies its guard in the state where
it executes. -/
def Guarded (s : UiStack) (ops : List StackOp) : Prop :=
  ∀ i : Fin ops.length, OpGuard (applyOps s (ops.take i.1)) (ops.get i)

instance (s : UiStack) (ops : List StackOp) : Decidable (Guarded s ops) :=
  inferInstanceAs (Decidable (∀ i : Fin _, _))

/-! ## The orchestrator (src/ui.rs) -/

/-- `MenuItem` (src/ui.rs lines 68-72). -/
inductive MenuItem where
  | issues
  | pullRequests
  | projects
deriving DecidableEq, Repr

/-- `RequestType` (src/ui.rs lines 126-130). -/
inductive RequestType where
  | issues
  | pullRequests
  | projects
deriving DecidableEq, Repr

/-- `RequestType::iter` (src/ui.rs lines 134-141). -/
def RequestType.iterAll : List RequestType :=
  [RequestType.issues, RequestType.pullRequests, RequestType.projects]

/-- `RepoData` (src/ui.rs lines 154-164), the `ResultEnvelope`.  The GraphQL
payloads are abstracted: each list result carries `data.repository`, an
`Option` holding an opaque payload. -/
inductive RepoData where
  | issues (repository : Option Nat)
  | pullRequests (repository : Option Nat)
  | projects (repository : Option Nat)
  | activeRemote (remote : String)
  | issueInspect
  | pullRequestInspect
  | projectInspect
deriving DecidableEq, Repr

/-- `ISSUES_VIEW_NAME` (src/ui/list_view.rs line 23). -/
def ISSUES_VIEW_NAME : String := "issues_view"

/-- `PULL_REQUESTS_VIEW_NAME` (src/ui/list_view.rs line 25). -/
def PULL_REQUESTS_VIEW_NAME : String := "pull_requests_view"

/-- `PROJECTS_VIEW_NAME` (src/ui/list_view.rs line 27). -/
def PROJECTS_VIEW_NAME : String := "projects_view"

/-- `REMOTE_EXPLORER_NAME` (src/ui/remote_explorer.rs line 23). -/
def REMOTE_EXPLORER_NAME : String := "remote_explorer"

/-- A freshly constructed list view (`create_issues_view` and friends):
accepts focus, starts unfocused, never asks to quit, holds the payload it
was built from. -/
def create_list_view (payload : Nat) : Panel :=
  { accepts := true, focused := false, quitFlag := false, payload := some payload }

/-- A freshly constructed `RemoteExplorer` panel as stored in the stack. -/
def remote_explorer_panel : Panel :=
  { accepts := true, focused := false, quitFlag := false, payload := none }

/-- The `Ui` orchestrator state (src/ui.rs lines 167-185).  The receiving
half of the mpsc channel is modelled as an explicit queue passed to `tick`;
`config` is reduced to the resolved github token; the `State` collaborator
is reduced to the record of `set_repository_data` calls in the effects. -/
structure Ui where
  active_menu_item : MenuItem
  data_response_data : List RepoData
  github_token : Option String
  repo_root : String
  active_remote : Option String
  ui_stack : UiStack
  quit : Bool
deriving DecidableEq, Repr

/-- `UiStack::get_panel_mut_ref_by_name` (src/ui/ui_stack.rs lines 104-113),
with the priority the entry was found under. -/
def UiStack.get_panel_by_name (s : UiStack) (name : String) :
    Option (Nat × Panel × String) :=
  match hashGet name s.panel_names with
  | some priority => (btreeGet priority s.panels).map (fun e => (priority, e))
  | none => none

/-- Log lines at their levels. -/
inductive LogLevel where
  | info
  | error
  | debug
deriving DecidableEq, Repr

/-- Effects of one `Ui::send_request` call. -/
structure DispatchEffects where
  threads_spawned : Nat
  channel_sends : Nat
  logs : List (LogLevel × String)
deriving DecidableEq, Repr

/-- Name used in the failure log of the spawned query. -/
def RequestType.logName : RequestType → String
  | RequestType.issues => "issues_query returned an error."
  | RequestType.pullRequests => "pull_requests_query returned an error."
  | RequestType.projects => "projects_query returned an error."

/-- `Ui::send_request` (src/ui.rs lines 318-394).  Checked synchronously:
the github token, then the active remote — each miss is an `Ok(())` no-op
with an info log.  `parses` abstracts whether the owner/name regex captures
the active remote (a pure property of the remote string); `network_ok`
whether the spawned query succeeds and pushes its envelope (a send counted
under `channel_sends`).  The `&self` receiver means the call can mutate no
orchestrator state, which the model reflects by returning none. -/
def send_request (github_token : Option String) (active_remote : Option String)
    (rt : RequestType) (parses : Bool) (network_ok : Bool) :
    Except String Unit × DispatchEffects :=
  match github_token with
  | none => (Except.ok (), ⟨0, 0, [(LogLevel.info, "Github token not set.")]⟩)
  | some _ =>
    match active_remote with
    | none => (Except.ok (), ⟨0, 0, [(LogLevel.info, "No active remote set for repository.")]⟩)
    | some _ =>
      if parses then
        (Except.ok (), ⟨1, if network_ok then 1 else 0,
          (if network_ok then [] else [(LogLevel.error, rt.logName)])⟩)
      else
        (Except.error "Couldn't capture owner or name for request", ⟨0, 0, []⟩)

/-- One iteration of the drain loop in `Ui::tick` (src/ui.rs lines
559-646): route one envelope.  Returns the updated state, the
`RepositoryState.set` calls made (`set_repository_data(repo_root, remote)`),
and whether `should_refresh_issues` was raised. -/
def apply_data (ui : Ui) (data : RepoData) : Ui × List (String × String) × Bool :=
  match data with
  | RepoData.issues repo =>
    match repo with
    | some payload =>
      let top_priority := (ui.ui_stack.get_highest_priority + 1) % u8Mod
      match ui.ui_stack.get_panel_by_name ISSUES_VIEW_NAME with
      | some (priority, p, pname) =>
        ({ ui with ui_stack := { ui.ui_stack with
            panels := btreeInsert priority ((p.update payload).1, pname) ui.ui_stack.panels } },
         [], false)
      | none =>
        ({ ui with ui_stack :=
            ui.ui_stack.add_panel (create_list_view payload) top_priority ISSUES_VIEW_NAME },
         [], false)
    | none => (ui, [], false)
  | RepoData.pullRequests repo =>
    match repo with
    | some payload =>
      let top_priority := (ui.ui_stack.get_highest_priority + 1) % u8Mod
      match ui.ui_stack.get_panel_by_name PULL_REQUESTS_VIEW_NAME with
      | some (priority, p, pname) =>
        ({ ui with ui_stack := { ui.ui_stack with
            panels := btreeInsert priority ((p.update payload).1, pname) ui.ui_stack.panels } },
         [], false)
      | none =>
        ({ ui with ui_stack :=
            ui.ui_stack.add_panel (create_list_view payload) top_priority PULL_REQUESTS_VIEW_NAME },
         [], false)
    | none => (ui, [], false)
  | RepoData.projects repo =>
    match repo with
    | some payload =>
      let top_priority := (ui.ui_stack.get_highest_priority + 1) % u8Mod
      match ui.ui_stack.get_panel_by_name PROJECTS_VIEW_NAME with
      | some (priority, p, pname) =>
        ({ ui with ui_stack := { ui.ui_stack with
            panels := btreeInsert priority ((p.update payload).1, pname) ui.ui_stack.panels } },
         [], false)
      | none =>
        ({ ui with ui_stack :=
            ui.ui_stack.add_panel (create_list_view payload) top_priority PROJECTS_VIEW_NAME },
         [], false)
    | none => (ui, [], false)
  | RepoData.activeRemote remote =>
    ({ ui with active_remote := some remote }, [(ui.repo_root, remote)], true)
  | RepoData.issueInspect => (ui, [], false)
  | RepoData.pullRequestInspect => (ui, [], false)
  | RepoData.projectInspect => (ui, [], false)

/-- Effects of one `Ui::tick` call. -/
structure TickEffects where
  set_calls : List (String × String)
  requests : List RequestType
  processed : List RepoData
deriving DecidableEq, Repr

/-- Accumulating step of the drain loop of `Ui::tick`. -/
def drain_step (acc : Ui × List (String × String) × Bool) (data : RepoData) :
    Ui × List (String × String) × Bool :=
  let r := apply_data acc.1 data
  (r.1, acc.2.1 ++ r.2.1, acc.2.2 || r.2.2)

/-- `Ui::tick` (src/ui.rs lines 549-663) against an explicit channel queue:
a single non-blocking `try_recv` (`if let Ok(data) = …try_recv()` — at most
one envelope dequeued), drain of `data_response_data`, a `request_all`
(one `send_request` per `RequestType`) when a remote arrived, then removal
of every panel whose `wants_to_quit()` holds.  Returns the new state, the
remaining queue, and the effects. -/
def Ui.tick (ui : Ui) (queue : List RepoData) : Ui × List RepoData × TickEffects :=
  let received := queue.take 1
  let remaining := queue.drop 1
  let buffer := ui.data_response_data ++ received
  let ui0 : Ui := { ui with data_response_data := [] }
  let step := buffer.foldl drain_step (ui0, [], false)
  let ui1 := step.1
  let requests := if step.2.2 then RequestType.iterAll else []
  let priorities_to_quit :=
    (ui1.ui_stack.panels.filter (fun kv => kv.2.1.quitFlag)).map Prod.fst
  let ui2 : Ui := { ui1 with
    ui_stack := priorities_to_quit.foldl (fun st pr => st.remove_panel pr) ui1.ui_stack }
  (ui2, remaining, ⟨step.2.1, requests, buffer⟩)

/-- `Ui::open_remote_explorer` (src/ui.rs lines 282-290): insert the remote
explorer one above the current maximum priority (`u8` addition). -/
def Ui.open_remote_explorer (ui : Ui) : Ui :=
  { ui with ui_stack := (ui.ui_stack.add_panel remote_explorer_panel
      ((ui.ui_stack.get_highest_priority + 1) % u8Mod) REMOTE_EXPLORER_NAME) }

/-- Whether the `get_highest_priority() + 1` computed by
`Ui::open_remote_explorer` (and by the panel-insertion branch of `tick`)
exceeds the `u8` range. -/
def Ui.open_remote_explorer_overflows (ui : Ui) : Bool :=
  decide (u8Mod ≤ ui.ui_stack.get_highest_priority + 1)

/-! ## The input/tick scheduler (src/lib.rs) -/

/-- `TICK_RATE` (src/lib.rs line 31), in milliseconds. -/
def TICK_RATE : Nat := 200

/-- `Event` (src/lib.rs lines 33-36), with the input payload dropped. -/
inductive Event where
  | input
  | tick
deriving DecidableEq, Repr

/-- The state `EventLoop::run` (src/lib.rs lines 98-139) carries across
poll cycles: the current instant and the instant of the last sent `Tick`,
in milliseconds. -/
structure EventLoopState where
  now : Nat
  last_tick : Nat
deriving DecidableEq, Repr

/-- One cycle of `EventLoop::run`: `timeout` is `TICK_RATE` minus the time
since the last tick (`checked_sub` with `unwrap_or(0)` — saturating);
`arrival = some d` means a terminal event becomes available `d` ms after
the poll starts, so the poll returns it when `d ≤ timeout` and otherwise
times out after `timeout`; on a timeout, `send_tick` emits `Tick` only when
a full `TICK_RATE` has elapsed since the last tick, resetting `last_tick`.
Returns the new state and the emitted event with its timestamp. -/
def eventLoopStep (s : EventLoopState) (arrival : Option Nat) :
    EventLoopState × Option (Nat × Event) :=
  let timeout := TICK_RATE - (s.now - s.last_tick)
  let timedOut : EventLoopState × Option (Nat × Event) :=
    let now2 := s.now + timeout
    if TICK_RATE ≤ now2 - s.last_tick then (⟨now2, now2⟩, some (now2, Event.tick))
    else (⟨now2, s.last_tick⟩, none)
  match arrival with
  | some d =>
    if d ≤ timeout then (⟨s.now + d, s.last_tick⟩, some (s.now + d, Event.input))
    else timedOut
  | none => timedOut

/-- Whether the poll of this cycle times out (no event before the
deadline). -/
def pollTimesOut (s : EventLoopState) (arrival : Option Nat) : Prop :=
  match arrival with
  | some d => ¬ (d ≤ TICK_RATE - (s.now - s.last_tick))
  | none => True

instance (s : EventLoopState) (arrival : Option Nat) : Decidable (pollTimesOut s arrival) := by
  unfold pollTimesOut
  cases arrival <;> infer_instance

/-- Run the loop over a schedule of poll outcomes, collecting the
timestamped events sent on the channel. -/
def eventLoopRun (s : EventLoopState) : List (Option Nat) → EventLoopState × List (Nat × Event)
  | [] => (s, [])
  | arrival :: rest =>
    let r := eventLoopStep s arrival
    let tail := eventLoopRun r.1 rest
    (tail.1, (match r.2 with | some e => [e] | none => []) ++ tail.2)

/-! ## The credential chain (src/config.rs) -/

/-- `DEFAULT_CREDENTIAL_ATTEMPTS` (src/config.rs line 120). -/
def DEFAULT_CREDENTIAL_ATTEMPTS : Nat := 4

/-- `DEFAULT_CREDENTIAL_TIMEOUT` (src/config.rs line 123), in ms. -/
def DEFAULT_CREDENTIAL_TIMEOUT : Nat := 50

/-- The four credential sources, in the order `get_access_token` tries
them. -/
inductive CredSource where
  | envVar
  | keyring
  | helper
  | tokenFile
deriving DecidableEq, Repr

/-- The token-file paths of `Config` (src/config.rs lines 306-311). -/
structure CredConfig where
  github_token_path : Option String
  gitlab_token_path : Option String
  gitea_token_path : Option String
deriving DecidableEq, Repr

/-- Rust's `str::trim`: strip whitespace characters from both ends. -/
def strTrim (s : String) : String :=
  ⟨((s.data.dropWhile Char.isWhitespace).reverse.dropWhile Char.isWhitespace).reverse⟩

/-- The `read_token_file_backend!` macro (src/config.rs lines 84-95): read
the configured file and trim surrounding whitespace; no path or a failed
read is an error.  `fs` maps a path to its contents when readable. -/
def read_token_file (path : Option String) (fs : String → Option String) :
    Except String String :=
  match path with
  | some p =>
    match fs p with
    | some contents => Except.ok (strTrim contents)
    | none => Except.error "token file not readable"
  | none => Except.error "No path for token file set"

/-- The parse step of `Config::get_git_credential` (src/config.rs lines
720-726): the first output line starting with `password=`, with every
occurrence of `password=` removed (`str::replace`). -/
def parse_credential_output (lines : List String) : Except String String :=
  match lines.find? (fun line => line.startsWith "password=") with
  | some line => Except.ok (line.replace "password=" "")
  | none => Except.error "No GitHub token found in git credentials"

/-- `Config::get_git_credential` (src/config.rs lines 708-727) with the
subprocess abstracted: `helper` is its outcome — the stdout lines on a
successful bounded wait, or the failure (spawn error, timeout with kill,
or undecodable output). -/
def get_git_credential (helper : Except String (List String)) : Except String String :=
  match helper with
  | Except.ok lines => parse_credential_output lines
  | Except.error e => Except.error e

/-- `Config::get_access_token` (src/config.rs lines 680-705): environment
variable, then OS keyring, then the credential helper, then the token
file — first success wins.  Returns the result and the list of sources
tried, in order. -/
def get_access_token (cfg : CredConfig) (token_type : String)
    (env_token keyring_token : Option String)
    (helper : Except String (List String)) (fs : String → Option String) :
    Except String String × List CredSource :=
  match env_token with
  | some token => (Except.ok token, [CredSource.envVar])
  | none =>
    match keyring_token with
    | some token => (Except.ok token, [CredSource.envVar, CredSource.keyring])
    | none =>
      match get_git_credential helper with
      | Except.ok token =>
        (Except.ok token, [CredSource.envVar, CredSource.keyring, CredSource.helper])
      | Except.error _ =>
        let file_result :=
          if token_type = "github" then read_token_file cfg.github_token_path fs
          else if token_type = "gitlab" then read_token_file cfg.gitlab_token_path fs
          else if token_type = "gitea" then read_token_file cfg.gitea_token_path fs
          else Except.error ("No token for " ++ token_type ++ " found")
        (file_result,
         [CredSource.envVar, CredSource.keyring, CredSource.helper, CredSource.tokenFile])

/-- Counters for `wait_for_credential_output`: `try_wait` calls, sleeps,
and whether the child was killed. -/
structure WaitStats where
  polls : Nat
  sleeps : Nat
  killed : Bool
deriving DecidableEq, Repr

/-- The retry loop of `Config::wait_for_credential_output` (src/config.rs
lines 732-745): each of the `fuel` iterations examines the last `try_wait`
result; on exit it returns the output, otherwise it sleeps
`credential_timeout` ms and polls again.  `exited i` is the result of the
`(i+1)`-th `try_wait`. -/
def waitLoop (exited : Nat → Bool) : Nat → Nat → WaitStats → Bool × WaitStats
  | 0, _, stats => (false, { stats with killed := true })
  | fuel + 1, idx, stats =>
    if exited idx then (true, stats)
    else waitLoop exited fuel (idx + 1)
      { stats with polls := stats.polls + 1, sleeps := stats.sleeps + 1 }

/-- `Config::wait_for_credential_output` (src/config.rs lines 730-746): an
initial `try_wait`, then the bounded retry loop; on exhaustion the child is
killed and the wait fails. -/
def wait_for_credential_output (credential_attempts : Nat) (exited : Nat → Bool) :
    Bool × WaitStats :=
  waitLoop exited credential_attempts 0 ⟨1, 0, false⟩

/-! ## The remote picker modal (src/ui/remote_explorer.rs) -/

/-- Key codes relevant to the modal's input handling. -/
inductive KeyCode where
  | char (c : Char)
  | enter
  | esc
  | tab
  | backTab
  | backspace
  | otherKey
deriving DecidableEq, Repr

/-- Key modifier sets distinguished by the modal's input handling. -/
inductive KeyMod where
  | noMod
  | shift
  | control
  | otherMod
deriving DecidableEq, Repr

/-- A key event. -/
structure KeyEvent where
  code : KeyCode
  modifiers : KeyMod
deriving DecidableEq, Repr

/-- `RemoteExplorer` state (src/ui/remote_explorer.rs lines 26-39).  The
cursor-flicker timing fields are render-only real-time state and are not
modelled. -/
structure RemoteExplorer where
  remote_mask : String
  items : List String
  selected : Option Nat
  quit : Bool
  is_focused : Bool
deriving DecidableEq, Repr

/-- The external collaborators the modal calls into. -/
structure GitOracle where
  remote_names : Except String (List String)
  url_for_name : String → Except String String
  send_ok : Bool

/-- Modulus of Rust `usize` arithmetic (64-bit target). -/
def usizeMod : Nat := 2 ^ 64

/-- `str::contains` on the remote mask. -/
def strContains (s pattern : String) : Bool :=
  decide (List.IsInfix pattern.data s.data)

/-- `RemoteExplorer::compare_entry_to_mask` (lines 106-112). -/
def compare_entry_to_mask (re : RemoteExplorer) (entry : String) : Bool :=
  strContains entry re.remote_mask

/-- `RemoteExplorer::update_items` (lines 64-73): refetch the remote names,
filter by the mask, sort, select index 0.  The `?` on `get_remote_names`
propagates its failure (second component `false`). -/
def update_items (re : RemoteExplorer) (oracle : GitOracle) : RemoteExplorer × Bool :=
  match oracle.remote_names with
  | Except.ok names =>
    ({ re with
        items := (names.filter (fun name => compare_entry_to_mask re name)).mergeSort
          (fun a b => a ≤ b),
        selected := some 0 }, true)
  | Except.error _ => (re, false)

/-- `RemoteExplorer::next_entry` (lines 76-88); `items.len() - 1` is `usize`
arithmetic, wrapping on an empty list. -/
def next_entry (re : RemoteExplorer) : RemoteExplorer :=
  let entry_index :=
    match re.selected with
    | some index =>
      if (re.items.length + (usizeMod - 1)) % usizeMod ≤ index then 0 else index + 1
    | none => 0
  { re with selected := some entry_index }

/-- `RemoteExplorer::previous_entry` (lines 91-103). -/
def previous_entry (re : RemoteExplorer) : RemoteExplorer :=
  let entry_index :=
    match re.selected with
    | some index =>
      if index = 0 then (re.items.length + (usizeMod - 1)) % usizeMod else index - 1
    | none => (re.items.length + (usizeMod - 1)) % usizeMod
  { re with selected := some entry_index }

/-- `RemoteExplorer::add_to_mask` (lines 115-119): append the character,
then `update_items` (whose failure propagates after the mask mutation). -/
def add_to_mask (re : RemoteExplorer) (c : Char) (oracle : GitOracle) :
    RemoteExplorer × Bool :=
  update_items { re with remote_mask := re.remote_mask.push c } oracle

/-- `RemoteExplorer::remove_from_mask` (lines 122-131): drop the final
character of the mask (byte-level removal in the source), then
`update_items`. -/
def remove_from_mask (re : RemoteExplorer) (oracle : GitOracle) :
    RemoteExplorer × Bool :=
  if re.remote_mask.length = 0 then (re, true)
  else update_items { re with remote_mask := re.remote_mask.dropRight 1 } oracle

/-- `RemoteExplorer::select_remote` (lines 156-173): resolve the selected
item's URL, send it as `ActiveRemote` data, and set the quit flag; any
failure leaves the flag unset and is returned (the caller logs it).
Returns the state, the result, and the payload sent (if any). -/
def select_remote (re : RemoteExplorer) (oracle : GitOracle) :
    RemoteExplorer × Except String Unit × Option String :=
  match re.selected with
  | some index =>
    match re.items.get? index with
    | some selected_remote =>
      match oracle.url_for_name selected_remote with
      | Except.ok remote_url =>
        if oracle.send_ok then
          ({ re with quit := true }, Except.ok (), some remote_url)
        else (re, Except.error "channel send failed", none)
      | Except.error e => (re, Except.error e, none)
    | none => (re, Except.error "Selected index of remote is out of bounds.", none)
  | none => (re, Except.error "Tried to select remote while there was no selection.", none)

/-- `RemoteExplorer::handle_input` (src/ui/remote_explorer.rs lines
177-214): dispatch on the modifier set and the key, then return `true`
unconditionally — the modal consumes every key. -/
def RemoteExplorer.handle_input (re : RemoteExplorer) (key : KeyEvent) (oracle : GitOracle) :
    RemoteExplorer × Bool :=
  let re' :=
    match key.modifiers with
    | KeyMod.noMod =>
      match key.code with
      | KeyCode.tab => next_entry re
      | KeyCode.enter => (select_remote re oracle).1
      | KeyCode.char c => (add_to_mask re c oracle).1
      | KeyCode.backspace => (remove_from_mask re oracle).1
      | KeyCode.esc => { re with quit := true }
      | _ => re
    | KeyMod.shift =>
      match key.code with
      | KeyCode.backTab => previous_entry re
      | KeyCode.char c => (add_to_mask re c oracle).1
      | _ => re
    | _ => re
  (re', true)

/-- The panel loop of `Ui::handle_input` (src/ui.rs lines 446-451):
offer the key to each panel handler in descending priority order; the
first taker wins.  Returns whether some panel handled the key and how many
panels were consulted. -/
def ui_dispatch_input (handlers : List (KeyEvent → Bool)) (key : KeyEvent) : Bool × Nat :=
  match handlers with
  | [] => (false, 0)
  | h :: rest =>
    if h key then (true, 1)
    else
      let r := ui_dispatch_input rest key
      (r.1, r.2 + 1)

/-- `Ui::handle_input` (src/ui.rs lines 446-486) at the dispatch level:
when some stacked panel consumes the key the function returns `true` at
once; only otherwise does the global-command match (quit, view switching,
remote picker) run, and the function returns `false`.  The third component
records whether the global-command match ran. -/
def ui_handle_input_model (handlers : List (KeyEvent → Bool)) (key : KeyEvent) :
    Bool × Nat × Bool :=
  let r := ui_dispatch_input handlers key
  if r.1 then (true, r.2, false)
  else (false, r.2, true)

/-- Success condition of `select_remote`: a valid selection whose URL
resolves and whose channel send succeeds. -/
def SelectOk (re : RemoteExplorer) (oracle : GitOracle) : Prop :=
  ∃ index remote url, re.selected = some index ∧ re.items.get? index = some remote ∧
    oracle.url_for_name remote = Except.ok url ∧ oracle.send_ok = true

/-! ## Concrete example objects used by witnesses and counterexamples -/

/-- A focus-accepting panel, as every view in the repository is. -/
def panelA : Panel := ⟨true, false, false, none⟩

/-- Two panels at priorities 3 and 7. -/
def stackTwo : UiStack := (UiStack.new.add_panel panelA 3 "a").add_panel panelA 7 "b"

/-- Two panels, the topmost at the `u8` maximum 255. -/
def stack255 : UiStack := (UiStack.new.add_panel panelA 3 "a").add_panel panelA 255 "b"

/-- A stack whose panel map holds 256 live entries. -/
def stack256 : UiStack := ⟨(List.range 256).map (fun i => (i, panelA, "")), []⟩

/-- An orchestrator with an empty stack and empty buffer. -/
def uiEx : Ui := ⟨MenuItem.issues, [], none, "/repo", none, UiStack.new, false⟩

/-- The `add_menu_panels` start-up sequence (src/ui.rs lines 239-279)
followed by selecting the issues view. -/
def opsEx : List StackOp :=
  [StackOp.add panelA 2 ISSUES_VIEW_NAME,
   StackOp.add panelA 0 PULL_REQUESTS_VIEW_NAME,
   StackOp.add panelA 1 PROJECTS_VIEW_NAME,
   StackOp.selectPanel ISSUES_VIEW_NAME]

/-- The token-file path `get_access_token` consults for a backend. -/
def tokenPathFor (cfg : CredConfig) (token_type : String) : Option String :=
  if token_type = "github" then cfg.github_token_path
  else if token_type = "gitlab" then cfg.gitlab_token_path
  else if token_type = "gitea" then cfg.gitea_token_path
  else none


theorem keysOf_nil {α : Type} : keysOf ([] : List (Nat × α)) = [] := rfl

theorem keysOf_cons {α : Type} (kv : Nat × α) (l : List (Nat × α)) :
    keysOf (kv :: l) = kv.1 :: keysOf l := rfl

theorem sortedKeys_nil {α : Type} : SortedKeys ([] : List (Nat × α)) := List.sorted_nil

theorem sortedKeys_cons {α : Type} {kv : Nat × α} {l : List (Nat × α)} :
    SortedKeys (kv :: l) ↔ (∀ kv' ∈ l, kv.1 < kv'.1) ∧ SortedKeys l := by
  constructor
  · intro h
    rw [SortedKeys, keysOf_cons, List.sorted_cons] at h
    exact ⟨fun kv' h' => h.1 _ (List.mem_map_of_mem Prod.fst h'), h.2⟩
  · intro ⟨h1, h2⟩
    rw [SortedKeys, keysOf_cons, List.sorted_cons]
    refine ⟨?_, h2⟩
    intro b hb
    obtain ⟨kv', hkv', rfl⟩ := List.mem_map.mp hb
    exact h1 _ hkv'

theorem nodupKeys_of_sorted {α : Type} {l : List (Nat × α)} (h : SortedKeys l) :
    (keysOf l).Nodup :=
  h.nodup

theorem btreeGet_eq_none_of_not_mem_keys {α : Type} {k : Nat} {l : List (Nat × α)}
    (h : k ∉ keysOf l) : btreeGet k l = none := by
  induction l with
  | nil => rfl
  | cons kv rest ih =>
    rw [keysOf_cons, List.mem_cons] at h
    push_neg at h
    obtain ⟨kv1, kv2⟩ := kv
    simp only [btreeGet, if_neg h.1]
    exact ih h.2

theorem mem_of_btreeGet_eq_some {α : Type} {k : Nat} {v : α} {l : List (Nat × α)}
    (h : btreeGet k l = some v) : (k, v) ∈ l := by
  induction l with
  | nil => simp [btreeGet] at h
  | cons kv rest ih =>
    obtain ⟨kv1, kv2⟩ := kv
    by_cases hk : k = kv1
    · subst hk
      have h' : kv2 = v := by simpa [btreeGet] using h
      subst h'
      exact List.mem_cons_self _ _
    · simp only [btreeGet, if_neg hk] at h
      exact List.mem_cons_of_mem _ (ih h)

theorem btreeGet_eq_some_of_mem {α : Type} {k : Nat} {v : α} {l : List (Nat × α)}
    (hnd : (keysOf l).Nodup) (h : (k, v) ∈ l) : btreeGet k l = some v := by
  induction l with
  | nil => simp at h
  | cons kv rest ih =>
    obtain ⟨kv1, kv2⟩ := kv
    rw [keysOf_cons, List.nodup_cons] at hnd
    rcases List.mem_cons.mp h with heq | hmem
    · rw [Prod.ext_iff] at heq
      obtain ⟨h1, h2⟩ := heq
      simp only at h1 h2
      subst h1
      subst h2
      simp [btreeGet]
    · have hk : k ≠ kv1 := by
        rintro rfl
        exact hnd.1 (List.mem_map.mpr ⟨(k, v), hmem, rfl⟩)
      simp only [btreeGet, if_neg hk]
      exact ih hnd.2 hmem

theorem btreeGet_insert_self {α : Type} (k : Nat) (v : α) (l : List (Nat × α)) :
    btreeGet k (btreeInsert k v l) = some v := by
  induction l with
  | nil => simp [btreeInsert, btreeGet]
  | cons kv rest ih =>
    obtain ⟨kv1, kv2⟩ := kv
    by_cases h1 : k < kv1
    · simp [btreeInsert, h1, btreeGet]
    · by_cases h2 : k = kv1
      · simp [btreeInsert, h1, h2, btreeGet]
      · simp only [btreeInsert, if_neg h1, if_neg h2, btreeGet]
        exact ih

theorem btreeGet_insert_ne {α : Type} {k k' : Nat} (v : α) (l : List (Nat × α))
    (h : k' ≠ k) : btreeGet k' (btreeInsert k v l) = btreeGet k' l := by
  induction l with
  | nil => simp [btreeInsert, btreeGet, if_neg h]
  | cons kv rest ih =>
    obtain ⟨kv1, kv2⟩ := kv
    by_cases h1 : k < kv1
    · simp only [btreeInsert, if_pos h1, btreeGet, if_neg h]
    · by_cases h2 : k = kv1
      · subst h2
        simp only [btreeInsert, if_neg h1, if_pos rfl, btreeGet, if_neg h]
      · simp only [btreeInsert, if_neg h1, if_neg h2, btreeGet]
        by_cases h3 : k' = kv1
        · rw [if_pos h3, if_pos h3]
        · rw [if_neg h3, if_neg h3]
          exact ih

theorem btreeRemove_sublist {α : Type} (k : Nat) (l : List (Nat × α)) :
    List.Sublist (btreeRemove k l) l := by
  induction l with
  | nil => exact List.Sublist.refl _
  | cons kv rest ih =>
    obtain ⟨kv1, kv2⟩ := kv
    by_cases h : k = kv1
    · simp only [btreeRemove, if_pos h]
      exact List.sublist_cons_self _ _
    · simp only [btreeRemove, if_neg h]
      exact List.Sublist.cons₂ _ ih

theorem btreeGet_remove_ne {α : Type} {k k' : Nat} (l : List (Nat × α))
    (h : k' ≠ k) : btreeGet k' (btreeRemove k l) = btreeGet k' l := by
  induction l with
  | nil => rfl
  | cons kv rest ih =>
    obtain ⟨kv1, kv2⟩ := kv
    by_cases h1 : k = kv1
    · subst h1
      simp only [btreeRemove]
      rw [ite_true]
      simp [btreeGet, if_neg h]
    · simp only [btreeRemove, if_neg h1, btreeGet]
      by_cases h2 : k' = kv1
      · rw [if_pos h2, if_pos h2]
      · rw [if_neg h2, if_neg h2]
        exact ih

theorem btreeGet_remove_self {α : Type} {k : Nat} {l : List (Nat × α)}
    (hnd : (keysOf l).Nodup) : btreeGet k (btreeRemove k l) = none := by
  induction l with
  | nil => rfl
  | cons kv rest ih =>
    obtain ⟨kv1, kv2⟩ := kv
    rw [keysOf_cons, List.nodup_cons] at hnd
    by_cases h1 : k = kv1
    · subst h1
      simp only [btreeRemove, if_pos rfl]
      apply btreeGet_eq_none_of_not_mem_keys
      exact hnd.1
    · simp only [btreeRemove, if_neg h1, btreeGet, if_neg h1]
      exact ih hnd.2

theorem mem_keysOf_btreeInsert {α : Type} {a k : Nat} {v : α} {l : List (Nat × α)}
    (h : a ∈ keysOf (btreeInsert k v l)) : a = k ∨ a ∈ keysOf l := by
  induction l with
  | nil => simpa [btreeInsert, keysOf] using h
  | cons kv rest ih =>
    obtain ⟨kv1, kv2⟩ := kv
    by_cases h1 : k < kv1
    · simp only [btreeInsert, if_pos h1, keysOf_cons, List.mem_cons] at h ⊢
      tauto
    · by_cases h2 : k = kv1
      · subst h2
        simp only [btreeInsert] at h
        rw [if_neg (lt_irrefl k), ite_true] at h
        simp only [keysOf_cons, List.mem_cons] at h ⊢
        tauto
      · simp only [btreeInsert, if_neg h1, if_neg h2, keysOf_cons, List.mem_cons] at h ⊢
        rcases h with h | h
        · tauto
        · rcases ih h with h' | h' <;> tauto

theorem btreeInsert_sorted {α : Type} {k : Nat} {v : α} {l : List (Nat × α)}
    (h : SortedKeys l) : SortedKeys (btreeInsert k v l) := by
  induction l with
  | nil => simp [btreeInsert, SortedKeys, keysOf]
  | cons kv rest ih =>
    obtain ⟨kv1, kv2⟩ := kv
    rw [sortedKeys_cons] at h
    by_cases h1 : k < kv1
    · simp only [btreeInsert, if_pos h1]
      rw [sortedKeys_cons]
      refine ⟨?_, sortedKeys_cons.mpr h⟩
      intro kv' hkv'
      rcases List.mem_cons.mp hkv' with heq | hmem
      · subst heq; exact h1
      · exact lt_trans h1 (h.1 _ hmem)
    · by_cases h2 : k = kv1
      · subst h2
        simp only [btreeInsert, if_neg h1, if_pos rfl]
        exact sortedKeys_cons.mpr ⟨h.1, h.2⟩
      · simp only [btreeInsert, if_neg h1, if_neg h2]
        rw [sortedKeys_cons]
        refine ⟨?_, ih h.2⟩
        intro kv' hkv'
        have hmem := List.mem_map_of_mem Prod.fst hkv'
        rcases mem_keysOf_btreeInsert hmem with heq | hmem'
        · rw [heq]
          omega
        · obtain ⟨kv'', hkv'', hfst⟩ := List.mem_map.mp hmem'
          rw [← hfst]
          exact h.1 _ hkv''

theorem btreeRemove_sorted {α : Type} {k : Nat} {l : List (Nat × α)}
    (h : SortedKeys l) : SortedKeys (btreeRemove k l) :=
  List.Pairwise.sublist ((btreeRemove_sublist k l).map Prod.fst) h

theorem keyLast_concat {α : Type} (l : List (Nat × α)) (kv : Nat × α) :
    keyLast (l ++ [kv]) = kv.1 := by
  simp [keyLast, List.getLast?_concat]

theorem le_keyLast_of_mem {α : Type} {l : List (Nat × α)} {k : Nat} {v : α}
    (hs : SortedKeys l) (h : (k, v) ∈ l) : k ≤ keyLast l := by
  induction l generalizing k v with
  | nil => simp at h
  | cons kv rest ih =>
    cases rest with
    | nil =>
      have : (k, v) = kv := by simpa using h
      simp [keyLast, ← this]
    | cons kv' rest' =>
      have hlast : keyLast (kv :: kv' :: rest') = keyLast (kv' :: rest') := by
        simp [keyLast, List.getLast?_cons_cons]
      rw [hlast]
      rw [sortedKeys_cons] at hs
      rcases List.mem_cons.mp h with heq | hmem
      · have hk : k = kv.1 := by rw [← heq]
        have h2 : kv.1 < kv'.1 := hs.1 _ (List.mem_cons_self _ _)
        have h3 : kv'.1 ≤ keyLast (kv' :: rest') :=
          ih (k := kv'.1) (v := kv'.2) hs.2 (List.mem_cons_self _ _)
        omega
      · exact ih hs.2 hmem

theorem btreeGet_eq_none_of_keyLast_lt {α : Type} {l : List (Nat × α)} {k : Nat}
    (hs : SortedKeys l) (h : keyLast l < k) : btreeGet k l = none := by
  apply btreeGet_eq_none_of_not_mem_keys
  intro hmem
  obtain ⟨⟨k', v⟩, hkv, hfst⟩ := List.mem_map.mp hmem
  subst hfst
  have := le_keyLast_of_mem hs hkv
  omega

theorem btreeInsert_append_of_gt {α : Type} {k : Nat} (v : α) {l : List (Nat × α)}
    (h : ∀ a ∈ keysOf l, a < k) : btreeInsert k v l = l ++ [(k, v)] := by
  induction l with
  | nil => rfl
  | cons kv rest ih =>
    obtain ⟨kv1, kv2⟩ := kv
    have h1 : kv1 < k := h kv1 (by simp [keysOf])
    simp only [btreeInsert, if_neg (by omega : ¬ k < kv1), if_neg (by omega : ¬ k = kv1)]
    rw [ih]
    · rfl
    · intro a ha
      exact h a (by simp [keysOf]; right; simpa [keysOf] using ha)

theorem btreeRemove_concat {α : Type} {k : Nat} {l : List (Nat × α)} (v : α)
    (h : k ∉ keysOf l) : btreeRemove k (l ++ [(k, v)]) = l := by
  induction l with
  | nil => simp [btreeRemove]
  | cons kv rest ih =>
    obtain ⟨kv1, kv2⟩ := kv
    rw [keysOf_cons, List.mem_cons] at h
    push_neg at h
    rw [List.cons_append]
    simp only [btreeRemove, if_neg h.1]
    exact congrArg (List.cons (kv1, kv2)) (ih h.2)

theorem btreeInsert_eq_self_of_mem {α : Type} {k : Nat} {v : α} {l : List (Nat × α)}
    (hs : SortedKeys l) (h : (k, v) ∈ l) : btreeInsert k v l = l := by
  induction l with
  | nil => simp at h
  | cons kv rest ih =>
    obtain ⟨kv1, kv2⟩ := kv
    rw [sortedKeys_cons] at hs
    rcases List.mem_cons.mp h with heq | hmem
    · have hk : k = kv1 := by rw [Prod.ext_iff] at heq; exact heq.1
      have hv : v = kv2 := by rw [Prod.ext_iff] at heq; exact heq.2
      subst hk; subst hv
      simp [btreeInsert]
    · have hk : kv1 < k := hs.1 _ hmem
      simp only [btreeInsert, if_neg (by omega : ¬ k < kv1), if_neg (by omega : ¬ k = kv1)]
      rw [ih hs.2 hmem]

theorem keysOf_btreeInsert_of_mem {α : Type} {k : Nat} (v : α) {l : List (Nat × α)}
    (hs : SortedKeys l) (h : k ∈ keysOf l) : keysOf (btreeInsert k v l) = keysOf l := by
  induction l with
  | nil => simp [keysOf] at h
  | cons kv rest ih =>
    obtain ⟨kv1, kv2⟩ := kv
    rw [sortedKeys_cons] at hs
    rw [keysOf_cons, List.mem_cons] at h
    by_cases h2 : k = kv1
    · subst h2
      simp only [btreeInsert, if_neg (lt_irrefl k), if_pos rfl]
      rfl
    · have hmem : k ∈ keysOf rest := h.resolve_left h2
      obtain ⟨⟨k', v'⟩, hkv', hfst⟩ := List.mem_map.mp hmem
      subst hfst
      have hk : kv1 < k' := hs.1 _ hkv'
      simp only [btreeInsert, if_neg (by omega : ¬ k' < kv1), if_neg h2, keysOf_cons]
      rw [ih hs.2 hmem]

theorem hashGet_insert_self (k : String) (v : Nat) (l : List (String × Nat)) :
    hashGet k (hashInsert k v l) = some v := by
  induction l with
  | nil => simp [hashInsert, hashGet]
  | cons kv rest ih =>
    obtain ⟨kv1, kv2⟩ := kv
    by_cases h : k = kv1
    · simp [hashInsert, if_pos h, hashGet]
    · simp only [hashInsert, if_neg h, hashGet, if_neg h]
      exact ih

theorem hashGet_insert_ne {k k' : String} (v : Nat) (l : List (String × Nat))
    (h : k' ≠ k) : hashGet k' (hashInsert k v l) = hashGet k' l := by
  induction l with
  | nil => simp [hashInsert, hashGet, if_neg h]
  | cons kv rest ih =>
    obtain ⟨kv1, kv2⟩ := kv
    by_cases h1 : k = kv1
    · subst h1
      simp only [hashInsert, if_pos rfl, hashGet, if_neg h]
    · simp only [hashInsert, if_neg h1, hashGet]
      by_cases h2 : k' = kv1
      · rw [if_pos h2, if_pos h2]
      · rw [if_neg h2, if_neg h2]
        exact ih

theorem hashGet_eq_none_of_not_mem_keys {k : String} {l : List (String × Nat)}
    (h : k ∉ hkeysOf l) : hashGet k l = none := by
  induction l with
  | nil => rfl
  | cons kv rest ih =>
    rw [hkeysOf, List.map_cons, List.mem_cons] at h
    push_neg at h
    obtain ⟨kv1, kv2⟩ := kv
    simp only [hashGet, if_neg h.1]
    exact ih h.2

theorem mem_of_hashGet_eq_some {k : String} {v : Nat} {l : List (String × Nat)}
    (h : hashGet k l = some v) : (k, v) ∈ l := by
  induction l with
  | nil => simp [hashGet] at h
  | cons kv rest ih =>
    obtain ⟨kv1, kv2⟩ := kv
    by_cases hk : k = kv1
    · subst hk
      have h' : kv2 = v := by simpa [hashGet] using h
      subst h'
      exact List.mem_cons_self _ _
    · simp only [hashGet, if_neg hk] at h
      exact List.mem_cons_of_mem _ (ih h)

theorem hashGet_eq_some_of_mem {k : String} {v : Nat} {l : List (String × Nat)}
    (hnd : (hkeysOf l).Nodup) (h : (k, v) ∈ l) : hashGet k l = some v := by
  induction l with
  | nil => simp at h
  | cons kv rest ih =>
    obtain ⟨kv1, kv2⟩ := kv
    rw [hkeysOf, List.map_cons, List.nodup_cons] at hnd
    rcases List.mem_cons.mp h with heq | hmem
    · rw [Prod.ext_iff] at heq
      obtain ⟨h1, h2⟩ := heq
      simp only at h1 h2
      subst h1
      subst h2
      simp [hashGet]
    · have hk : k ≠ kv1 := by
        rintro rfl
        exact hnd.1 (List.mem_map.mpr ⟨(k, v), hmem, rfl⟩)
      simp only [hashGet, if_neg hk]
      exact ih hnd.2 hmem

theorem mem_hkeysOf_hashInsert {a k : String} {v : Nat} {l : List (String × Nat)}
    (h : a ∈ hkeysOf (hashInsert k v l)) : a = k ∨ a ∈ hkeysOf l := by
  induction l with
  | nil => simpa [hashInsert, hkeysOf] using h
  | cons kv rest ih =>
    obtain ⟨kv1, kv2⟩ := kv
    by_cases h1 : k = kv1
    · subst h1
      simp only [hashInsert] at h
      rw [ite_true] at h
      simp only [hkeysOf, List.map_cons, List.mem_cons] at h ⊢
      tauto
    · simp only [hashInsert, if_neg h1, hkeysOf, List.map_cons, List.mem_cons] at h ⊢
      rcases h with h | h
      · tauto
      · rcases ih h with h' | h' <;> tauto

theorem hashInsert_nodup {k : String} {v : Nat} {l : List (String × Nat)}
    (hnd : (hkeysOf l).Nodup) : (hkeysOf (hashInsert k v l)).Nodup := by
  induction l with
  | nil => simp [hashInsert, hkeysOf]
  | cons kv rest ih =>
    obtain ⟨kv1, kv2⟩ := kv
    rw [hkeysOf, List.map_cons, List.nodup_cons] at hnd
    by_cases h1 : k = kv1
    · subst h1
      simp only [hashInsert]
      rw [ite_true]
      simp only [hkeysOf, List.map_cons, List.nodup_cons]
      exact hnd
    · simp only [hashInsert, if_neg h1, hkeysOf, List.map_cons, List.nodup_cons]
      refine ⟨?_, ih hnd.2⟩
      intro hmem
      rcases mem_hkeysOf_hashInsert hmem with heq | hmem'
      · exact h1 heq.symm
      · exact hnd.1 hmem'

theorem hashRemove_sublist (k : String) (l : List (String × Nat)) :
    List.Sublist (hashRemove k l) l := by
  induction l with
  | nil => exact List.Sublist.refl _
  | cons kv rest ih =>
    obtain ⟨kv1, kv2⟩ := kv
    by_cases h : k = kv1
    · simp only [hashRemove, if_pos h]
      exact List.sublist_cons_self _ _
    · simp only [hashRemove, if_neg h]
      exact List.Sublist.cons₂ _ ih

theorem hashGet_remove_ne {k k' : String} (l : List (String × Nat))
    (h : k' ≠ k) : hashGet k' (hashRemove k l) = hashGet k' l := by
  induction l with
  | nil => rfl
  | cons kv rest ih =>
    obtain ⟨kv1, kv2⟩ := kv
    by_cases h1 : k = kv1
    · subst h1
      simp only [hashRemove]
      rw [ite_true]
      simp [hashGet, if_neg h]
    · simp only [hashRemove, if_neg h1, hashGet]
      by_cases h2 : k' = kv1
      · rw [if_pos h2, if_pos h2]
      · rw [if_neg h2, if_neg h2]
        exact ih

theorem hashGet_remove_self {k : String} {l : List (String × Nat)}
    (hnd : (hkeysOf l).Nodup) : hashGet k (hashRemove k l) = none := by
  induction l with
  | nil => rfl
  | cons kv rest ih =>
    rw [hkeysOf, List.map_cons, List.nodup_cons] at hnd
    obtain ⟨kv1, kv2⟩ := kv
    by_cases h1 : k = kv1
    · subst h1
      simp only [hashRemove]
      rw [ite_true]
      exact hashGet_eq_none_of_not_mem_keys hnd.1
    · simp only [hashRemove, if_neg h1, hashGet, if_neg h1]
      exact ih hnd.2

theorem hashGet_filter {k : String} {l : List (String × Nat)} {p : String × Nat → Bool}
    (hnd : (hkeysOf l).Nodup) :
    hashGet k (l.filter p) =
      match hashGet k l with
      | some v => if p (k, v) then some v else none
      | none => none := by
  induction l with
  | nil => rfl
  | cons kv rest ih =>
    obtain ⟨kv1, kv2⟩ := kv
    rw [hkeysOf, List.map_cons, List.nodup_cons] at hnd
    by_cases h1 : k = kv1
    · subst h1
      by_cases hp : p (k, kv2)
      · simp [List.filter_cons, hp, hashGet]
      · have hnone : hashGet k (List.filter p rest) = none := by
          apply hashGet_eq_none_of_not_mem_keys
          intro hmem
          obtain ⟨kv', hkv', hfst⟩ := List.mem_map.mp hmem
          exact hnd.1 (hfst ▸ List.mem_map.mpr ⟨kv', List.mem_of_mem_filter hkv', rfl⟩)
        simp [List.filter_cons, hp, hashGet, hnone]
    · by_cases hp : p (kv1, kv2)
      · simpa [List.filter_cons, hp, hashGet, h1] using ih hnd.2
      · simpa [List.filter_cons, hp, hashGet, h1] using ih hnd.2

theorem UiStack.backedAt_iff {s : UiStack} {kv : String × Nat} :
    s.backedAt kv ↔ ∃ q : Panel, btreeGet kv.2 s.panels = some (q, kv.1) := by
  unfold UiStack.backedAt
  cases hb : btreeGet kv.2 s.panels with
  | none => simp
  | some e =>
    obtain ⟨q, nm⟩ := e
    constructor
    · intro h
      simp only [Option.map_some'] at h
      rw [Option.some.injEq] at h
      exact ⟨q, by rw [h]⟩
    · rintro ⟨q', h⟩
      rw [Option.some.injEq, Prod.ext_iff] at h
      simp only [Option.map_some', Option.some.injEq]
      exact h.2

theorem UiStack.WF.sorted {s : UiStack} (h : s.WF) : SortedKeys s.panels := h.1

theorem UiStack.WF.below {s : UiStack} (h : s.WF) : ∀ kv ∈ s.panels, kv.1 < u8Mod := h.2.1

theorem UiStack.WF.namesNodup {s : UiStack} (h : s.WF) : (hkeysOf s.panel_names).Nodup :=
  h.2.2.1

theorem UiStack.WF.consistent {s : UiStack} (h : s.WF) : s.names_consistent := h.2.2.2.1

theorem UiStack.WF.backed {s : UiStack} (h : s.WF) : ∀ kv ∈ s.panel_names, s.backedAt kv :=
  h.2.2.2.2

theorem UiStack.WF.keysNodup {s : UiStack} (h : s.WF) : (keysOf s.panels).Nodup :=
  nodupKeys_of_sorted h.sorted

theorem wf_new : UiStack.new.WF := by
  refine ⟨sortedKeys_nil, ?_, ?_, ?_, ?_⟩ <;> simp [UiStack.new, UiStack.names_consistent, hkeysOf]

/-- A well-formed stack's invariant, as claim C1 states it. -/
theorem UiStack.WF.invariant {s : UiStack} (h : s.WF) : s.Invariant :=
  ⟨h.keysNodup, h.consistent⟩

/-- Helper: a duplicate-free list whose members all equal `a`, and which
contains `a`, is `[a]`. -/
theorem eq_singleton_of_all_eq {α : Type} {l : List α} {a : α}
    (hmem : a ∈ l) (hall : ∀ x ∈ l, x = a) (hnd : l.Nodup) : l = [a] := by
  cases l with
  | nil => simp at hmem
  | cons x rest =>
    have hx : x = a := hall x (List.mem_cons_self _ _)
    subst hx
    rw [List.nodup_cons] at hnd
    cases rest with
    | nil => rfl
    | cons y rest' =>
      have hy : y = x := hall y (by simp)
      subst hy
      exact absurd (List.mem_cons_self _ _) hnd.1

/-- A duplicate-free list of naturals all below `B` has at most `B`
elements. -/
theorem length_le_of_nodup_below {l : List Nat} {B : Nat}
    (hnd : l.Nodup) (hb : ∀ a ∈ l, a < B) : l.length ≤ B := by
  have hsub : l.toFinset ⊆ Finset.range B := by
    intro a ha
    rw [List.mem_toFinset] at ha
    rw [Finset.mem_range]
    exact hb a ha
  have := Finset.card_le_card hsub
  rw [List.toFinset_card_of_nodup hnd, Finset.card_range] at this
  exact this

theorem get_highest_eq_keyLast (s : UiStack) : s.get_highest_priority = keyLast s.panels := by
  cases h : s.panels.getLast? <;> simp [UiStack.get_highest_priority, keyLast, h]

/-- Splitting sortedness over a final element. -/
theorem sortedKeys_concat_iff {α : Type} {init : List (Nat × α)} {x : Nat × α} :
    SortedKeys (init ++ [x]) ↔ SortedKeys init ∧ ∀ a ∈ keysOf init, a < x.1 := by
  unfold SortedKeys
  constructor
  · intro h
    have h2 : List.Pairwise (· < ·) (List.map Prod.fst init ++ List.map Prod.fst [x]) := by
      rw [← List.map_append]
      exact h
    rw [List.pairwise_append] at h2
    exact ⟨h2.1, fun a ha => h2.2.2 a ha x.1 (by simp)⟩
  · rintro ⟨h1, h2⟩
    have h3 : List.Pairwise (· < ·) (List.map Prod.fst init ++ List.map Prod.fst [x]) := by
      rw [List.pairwise_append]
      refine ⟨h1, by simp, fun a ha b hb => ?_⟩
      simp only [List.map_cons, List.map_nil, List.mem_singleton] at hb
      subst hb
      exact h2 a ha
    rw [← List.map_append] at h3
    exact h3

/-- Inserting at the key of the final element replaces it. -/
theorem btreeInsert_replace_concat {α : Type} {init : List (Nat × α)} {hp : Nat} (v w : α)
    (h : ∀ a ∈ keysOf init, a < hp) :
    btreeInsert hp v (init ++ [(hp, w)]) = init ++ [(hp, v)] := by
  induction init with
  | nil => simp [btreeInsert]
  | cons kv rest ih =>
    obtain ⟨kv1, kv2⟩ := kv
    have h1 : kv1 < hp := h kv1 (by simp [keysOf])
    rw [List.cons_append]
    simp only [btreeInsert, if_neg (by omega : ¬ hp < kv1), if_neg (by omega : ¬ hp = kv1)]
    rw [List.cons_append]
    have := ih (fun a ha => h a (by rw [keysOf_cons]; exact List.mem_cons_of_mem _ ha))
    rw [this]

theorem wf_add_panel {s : UiStack} (p : Panel) {pr : Nat} {nm : String}
    (hwf : s.WF) (hfresh : FreshAdd s pr nm) : (s.add_panel p pr nm).WF := by
  set pm := pr % u8Mod with hpm
  have hpm256 : pm < u8Mod := Nat.mod_lt _ (by norm_num [u8Mod])
  have hsorted' : SortedKeys (btreeInsert pm (p, nm) s.panels) := btreeInsert_sorted hwf.sorted
  have hnodup' : (keysOf (btreeInsert pm (p, nm) s.panels)).Nodup := nodupKeys_of_sorted hsorted'
  refine ⟨hsorted', ?_, hashInsert_nodup hwf.namesNodup, ?_, ?_⟩
  · intro kv hkv
    have hmem := List.mem_map_of_mem Prod.fst hkv
    rcases mem_keysOf_btreeInsert hmem with heq | hmem'
    · rw [heq]; exact hpm256
    · obtain ⟨kv', hkv', hfst⟩ := List.mem_map.mp hmem'
      calc kv.1 = kv'.1 := hfst.symm
        _ < u8Mod := hwf.below kv' hkv'
  · intro kv hkv
    have hget : btreeGet kv.1 (btreeInsert pm (p, nm) s.panels) = some kv.2 :=
      btreeGet_eq_some_of_mem hnodup' (by rw [← Prod.mk.eta (p := kv)] at hkv; exact hkv)
    by_cases hk : kv.1 = pm
    · rw [hk, btreeGet_insert_self] at hget
      have hv : kv.2 = (p, nm) := by injection hget with h; exact h.symm
      show hashGet kv.2.2 (hashInsert nm pm s.panel_names) = some kv.1
      rw [hv, hk]
      exact hashGet_insert_self nm pm s.panel_names
    · rw [btreeGet_insert_ne _ _ hk] at hget
      have hmem : (kv.1, kv.2) ∈ s.panels := mem_of_btreeGet_eq_some hget
      have hcons := hwf.consistent (kv.1, kv.2) hmem
      show hashGet kv.2.2 (hashInsert nm pm s.panel_names) = some kv.1
      by_cases hnmk : kv.2.2 = nm
      · exfalso
        rw [hnmk] at hcons
        rcases hfresh with ⟨hn, _⟩ | hn
        · rw [hn] at hcons; exact Option.noConfusion hcons
        · rw [hn] at hcons
          injection hcons with h
          exact hk h.symm
      · rw [hashGet_insert_ne _ _ hnmk]
        exact hcons
  · intro kv hkv
    have hget : hashGet kv.1 (hashInsert nm pm s.panel_names) = some kv.2 :=
      hashGet_eq_some_of_mem (hashInsert_nodup hwf.namesNodup)
        (by rw [← Prod.mk.eta (p := kv)] at hkv; exact hkv)
    rw [UiStack.backedAt_iff]
    by_cases hk : kv.1 = nm
    · rw [hk, hashGet_insert_self] at hget
      have hv : kv.2 = pm := by injection hget with h; exact h.symm
      refine ⟨p, ?_⟩
      show btreeGet kv.2 (btreeInsert pm (p, nm) s.panels) = some (p, kv.1)
      rw [hv, hk]
      exact btreeGet_insert_self pm (p, nm) s.panels
    · rw [hashGet_insert_ne _ _ hk] at hget
      have hmem : (kv.1, kv.2) ∈ s.panel_names := mem_of_hashGet_eq_some hget
      have hback := hwf.backed (kv.1, kv.2) hmem
      rw [UiStack.backedAt_iff] at hback
      obtain ⟨q, hq⟩ := hback
      by_cases hk2 : kv.2 = pm
      · exfalso
        rcases hfresh with ⟨_, hb⟩ | hn
        · rw [hk2, hb] at hq
          exact Option.noConfusion hq
        · have hmem2 : (nm, pm) ∈ s.panel_names := mem_of_hashGet_eq_some hn
          have hback2 := hwf.backed (nm, pm) hmem2
          rw [UiStack.backedAt_iff] at hback2
          obtain ⟨q', hq'⟩ := hback2
          rw [hk2] at hq
          rw [hq] at hq'
          injection hq' with h
          have h2 : kv.1 = nm := congrArg Prod.snd h
          exact hk h2
      · refine ⟨q, ?_⟩
        show btreeGet kv.2 (btreeInsert pm (p, nm) s.panels) = some (q, kv.1)
        rw [btreeGet_insert_ne _ _ hk2]
        exact hq

theorem wf_remove_panel {s : UiStack} (pr : Nat) (hwf : s.WF) : (s.remove_panel pr).WF := by
  have hsorted' : SortedKeys (btreeRemove pr s.panels) := btreeRemove_sorted hwf.sorted
  have hnodup' := nodupKeys_of_sorted hsorted'
  refine ⟨hsorted', ?_, ?_, ?_, ?_⟩
  · intro kv hkv
    exact hwf.below kv ((btreeRemove_sublist pr s.panels).subset hkv)
  · show (hkeysOf (s.panel_names.filter _)).Nodup
    exact List.Nodup.sublist ((List.filter_sublist _).map Prod.fst) hwf.namesNodup
  · intro kv hkv
    have hget : btreeGet kv.1 (btreeRemove pr s.panels) = some kv.2 :=
      btreeGet_eq_some_of_mem hnodup' (by rw [← Prod.mk.eta (p := kv)] at hkv; exact hkv)
    have hkpr : kv.1 ≠ pr := by
      rintro rfl
      rw [btreeGet_remove_self hwf.keysNodup] at hget
      exact Option.noConfusion hget
    rw [btreeGet_remove_ne _ (Ne.symm (Ne.symm hkpr))] at hget
    have hmem : (kv.1, kv.2) ∈ s.panels := mem_of_btreeGet_eq_some hget
    have hcons := hwf.consistent (kv.1, kv.2) hmem
    show hashGet kv.2.2 (s.panel_names.filter (fun kv => kv.2 != pr)) = some kv.1
    rw [hashGet_filter hwf.namesNodup, hcons]
    simp [hkpr]
  · intro kv hkv
    have hkv2 : kv ∈ s.panel_names.filter (fun kv => kv.2 != pr) := hkv
    have hmem : kv ∈ s.panel_names := List.mem_of_mem_filter hkv2
    have hfilt := List.of_mem_filter hkv2
    have hkpr2 : kv.2 ≠ pr := by simpa using hfilt
    have hback := hwf.backed kv hmem
    rw [UiStack.backedAt_iff] at hback
    obtain ⟨q, hq⟩ := hback
    rw [UiStack.backedAt_iff]
    refine ⟨q, ?_⟩
    show btreeGet kv.2 (btreeRemove pr s.panels) = some (q, kv.1)
    rw [btreeGet_remove_ne _ hkpr2]
    exact hq

theorem wf_remove_panel_by_name {s : UiStack} (nm : String) (hwf : s.WF) :
    (s.remove_panel_by_name nm).WF := by
  unfold UiStack.remove_panel_by_name
  cases hn : hashGet nm s.panel_names with
  | none => exact hwf
  | some pr =>
    have hsorted' : SortedKeys (btreeRemove pr s.panels) := btreeRemove_sorted hwf.sorted
    have hnodup' := nodupKeys_of_sorted hsorted'
    have hnamesNodup' : (hkeysOf (hashRemove nm s.panel_names)).Nodup :=
      List.Nodup.sublist ((hashRemove_sublist nm s.panel_names).map Prod.fst) hwf.namesNodup
    refine ⟨hsorted', ?_, hnamesNodup', ?_, ?_⟩
    · intro kv hkv
      exact hwf.below kv ((btreeRemove_sublist pr s.panels).subset hkv)
    · intro kv hkv
      have hget : btreeGet kv.1 (btreeRemove pr s.panels) = some kv.2 :=
        btreeGet_eq_some_of_mem hnodup' (by rw [← Prod.mk.eta (p := kv)] at hkv; exact hkv)
      have hkpr : kv.1 ≠ pr := by
        rintro rfl
        rw [btreeGet_remove_self hwf.keysNodup] at hget
        exact Option.noConfusion hget
      rw [btreeGet_remove_ne _ hkpr] at hget
      have hmem : (kv.1, kv.2) ∈ s.panels := mem_of_btreeGet_eq_some hget
      have hcons := hwf.consistent (kv.1, kv.2) hmem
      show hashGet kv.2.2 (hashRemove nm s.panel_names) = some kv.1
      by_cases hnmk : kv.2.2 = nm
      · exfalso
        rw [hnmk, hn] at hcons
        injection hcons with h
        exact hkpr h.symm
      · rw [hashGet_remove_ne _ hnmk]
        exact hcons
    · intro kv hkv
      have hget : hashGet kv.1 (hashRemove nm s.panel_names) = some kv.2 :=
        hashGet_eq_some_of_mem hnamesNodup' (by rw [← Prod.mk.eta (p := kv)] at hkv; exact hkv)
      have hknm : kv.1 ≠ nm := by
        rintro rfl
        rw [hashGet_remove_self hwf.namesNodup] at hget
        exact Option.noConfusion hget
      rw [hashGet_remove_ne _ hknm] at hget
      have hmem : (kv.1, kv.2) ∈ s.panel_names := mem_of_hashGet_eq_some hget
      have hback := hwf.backed (kv.1, kv.2) hmem
      rw [UiStack.backedAt_iff] at hback
      obtain ⟨q, hq⟩ := hback
      rw [UiStack.backedAt_iff]
      by_cases hk2 : kv.2 = pr
      · exfalso
        have hmem2 : (nm, pr) ∈ s.panel_names := mem_of_hashGet_eq_some hn
        have hback2 := hwf.backed (nm, pr) hmem2
        rw [UiStack.backedAt_iff] at hback2
        obtain ⟨q', hq'⟩ := hback2
        rw [hk2] at hq
        rw [hq] at hq'
        injection hq' with h
        have h2 : kv.1 = nm := congrArg Prod.snd h
        exact hknm h2
      · refine ⟨q, ?_⟩
        show btreeGet kv.2 (btreeRemove pr s.panels) = some (q, kv.1)
        rw [btreeGet_remove_ne _ hk2]
        exact hq

/-- Replacing the panel value stored under an existing key, keeping the
entry's name, preserves well-formedness (the in-place mutation performed by
`set_focus` on a stack entry). -/
theorem wf_replace_value {s : UiStack} {pr : Nat} {q : Panel} {nm₂ : String} (q' : Panel)
    (hwf : s.WF) (hget : btreeGet pr s.panels = some (q, nm₂)) :
    UiStack.WF ⟨btreeInsert pr (q', nm₂) s.panels, s.panel_names⟩ := by
  have hmem0 : (pr, q, nm₂) ∈ s.panels := mem_of_btreeGet_eq_some hget
  have hsorted' : SortedKeys (btreeInsert pr (q', nm₂) s.panels) := btreeInsert_sorted hwf.sorted
  have hnodup' := nodupKeys_of_sorted hsorted'
  refine ⟨hsorted', ?_, hwf.namesNodup, ?_, ?_⟩
  · intro kv hkv
    have hmem := List.mem_map_of_mem Prod.fst hkv
    rcases mem_keysOf_btreeInsert hmem with heq | hmem'
    · rw [heq]
      exact hwf.below (pr, q, nm₂) hmem0
    · obtain ⟨kv', hkv', hfst⟩ := List.mem_map.mp hmem'
      calc kv.1 = kv'.1 := hfst.symm
        _ < u8Mod := hwf.below kv' hkv'
  · intro kv hkv
    have hget2 : btreeGet kv.1 (btreeInsert pr (q', nm₂) s.panels) = some kv.2 :=
      btreeGet_eq_some_of_mem hnodup' (by rw [← Prod.mk.eta (p := kv)] at hkv; exact hkv)
    by_cases hk : kv.1 = pr
    · rw [hk, btreeGet_insert_self] at hget2
      have hv : kv.2 = (q', nm₂) := by injection hget2 with h; exact h.symm
      show hashGet kv.2.2 s.panel_names = some kv.1
      rw [hv, hk]
      exact hwf.consistent (pr, q, nm₂) hmem0
    · rw [btreeGet_insert_ne _ _ hk] at hget2
      exact hwf.consistent (kv.1, kv.2) (mem_of_btreeGet_eq_some hget2)
  · intro kv hkv
    have hback := hwf.backed kv hkv
    rw [UiStack.backedAt_iff] at hback
    obtain ⟨q0, hq0⟩ := hback
    rw [UiStack.backedAt_iff]
    by_cases hk : kv.2 = pr
    · rw [hk] at hq0
      rw [hq0] at hget
      injection hget with h
      have hnm : kv.1 = nm₂ := congrArg Prod.snd h
      refine ⟨q', ?_⟩
      show btreeGet kv.2 (btreeInsert pr (q', nm₂) s.panels) = some (q', kv.1)
      rw [hk, hnm, btreeGet_insert_self]
    · refine ⟨q0, ?_⟩
      show btreeGet kv.2 (btreeInsert pr (q', nm₂) s.panels) = some (q0, kv.1)
      rw [btreeGet_insert_ne _ _ hk]
      exact hq0

theorem wf_set_panel_priority {s : UiStack} {np : Nat} {nm : String}
    (hwf : s.WF) (hnp : np < u8Mod) : (s.set_panel_priority_by_name np nm).WF := by
  unfold UiStack.set_panel_priority_by_name
  cases hn : hashGet nm s.panel_names with
  | none => exact hwf
  | some pr =>
    dsimp only
    by_cases heq : np = pr
    · rw [if_pos heq]
      exact hwf
    rw [if_neg heq]
    by_cases hocc : (btreeGet np s.panels).isSome
    · rw [if_pos hocc]
      exact hwf
    rw [if_neg hocc]
    cases hent : btreeGet pr s.panels with
    | none => exact hwf
    | some entry =>
      dsimp only
      obtain ⟨q, enm⟩ := entry
      -- the entry moved is the one the name index points at, so its name is `nm`
      have hback0 := hwf.backed (nm, pr) (mem_of_hashGet_eq_some hn)
      rw [UiStack.backedAt_iff] at hback0
      obtain ⟨q0, hq0⟩ := hback0
      have henm : enm = nm := by
        rw [hent] at hq0
        injection hq0 with h
        exact (congrArg Prod.snd h)
      subst enm
      have hnone : btreeGet np s.panels = none := by
        cases hx : btreeGet np s.panels with
        | none => rfl
        | some e => rw [hx] at hocc; simp at hocc
      have hsortedR : SortedKeys (btreeRemove pr s.panels) := btreeRemove_sorted hwf.sorted
      have hsorted' : SortedKeys (btreeInsert np (q, nm) (btreeRemove pr s.panels)) :=
        btreeInsert_sorted hsortedR
      have hnodup' := nodupKeys_of_sorted hsorted'
      refine ⟨hsorted', ?_, hashInsert_nodup hwf.namesNodup, ?_, ?_⟩
      · intro kv hkv
        have hmem := List.mem_map_of_mem Prod.fst hkv
        rcases mem_keysOf_btreeInsert hmem with heq2 | hmem'
        · rw [heq2]; exact hnp
        · obtain ⟨kv', hkv', hfst⟩ := List.mem_map.mp hmem'
          have : kv' ∈ s.panels := (btreeRemove_sublist pr s.panels).subset hkv'
          calc kv.1 = kv'.1 := hfst.symm
            _ < u8Mod := hwf.below kv' this
      · intro kv hkv
        have hget2 : btreeGet kv.1 (btreeInsert np (q, nm) (btreeRemove pr s.panels))
            = some kv.2 :=
          btreeGet_eq_some_of_mem hnodup' (by rw [← Prod.mk.eta (p := kv)] at hkv; exact hkv)
        by_cases hk : kv.1 = np
        · rw [hk, btreeGet_insert_self] at hget2
          have hv : kv.2 = (q, nm) := by injection hget2 with h; exact h.symm
          show hashGet kv.2.2 (hashInsert nm np s.panel_names) = some kv.1
          rw [hv, hk]
          exact hashGet_insert_self nm np s.panel_names
        · rw [btreeGet_insert_ne _ _ hk] at hget2
          have hkpr : kv.1 ≠ pr := by
            rintro rfl
            rw [btreeGet_remove_self hwf.keysNodup] at hget2
            exact Option.noConfusion hget2
          rw [btreeGet_remove_ne _ hkpr] at hget2
          have hmem2 : (kv.1, kv.2) ∈ s.panels := mem_of_btreeGet_eq_some hget2
          have hcons := hwf.consistent (kv.1, kv.2) hmem2
          show hashGet kv.2.2 (hashInsert nm np s.panel_names) = some kv.1
          by_cases hnmk : kv.2.2 = nm
          · exfalso
            rw [hnmk, hn] at hcons
            injection hcons with h
            exact hkpr h.symm
          · rw [hashGet_insert_ne _ _ hnmk]
            exact hcons
      · intro kv hkv
        have hget2 : hashGet kv.1 (hashInsert nm np s.panel_names) = some kv.2 :=
          hashGet_eq_some_of_mem (hashInsert_nodup hwf.namesNodup)
            (by rw [← Prod.mk.eta (p := kv)] at hkv; exact hkv)
        rw [UiStack.backedAt_iff]
        by_cases hk : kv.1 = nm
        · rw [hk, hashGet_insert_self] at hget2
          have hv : kv.2 = np := by injection hget2 with h; exact h.symm
          refine ⟨q, ?_⟩
          show btreeGet kv.2 (btreeInsert np (q, nm) (btreeRemove pr s.panels)) = some (q, kv.1)
          rw [hv, hk, btreeGet_insert_self]
        · rw [hashGet_insert_ne _ _ hk] at hget2
          have hmem2 : (kv.1, kv.2) ∈ s.panel_names := mem_of_hashGet_eq_some hget2
          have hback := hwf.backed (kv.1, kv.2) hmem2
          rw [UiStack.backedAt_iff] at hback
          obtain ⟨q1, hq1⟩ := hback
          have hknp : kv.2 ≠ np := by
            rintro rfl
            rw [hnone] at hq1
            exact Option.noConfusion hq1
          have hkpr : kv.2 ≠ pr := by
            rintro rfl
            rw [hq1] at hq0
            injection hq0 with h
            exact hk (congrArg Prod.snd h)
          refine ⟨q1, ?_⟩
          show btreeGet kv.2 (btreeInsert np (q, nm) (btreeRemove pr s.panels)) = some (q1, kv.1)
          rw [btreeGet_insert_ne _ _ hknp, btreeGet_remove_ne _ hkpr]
          exact hq1

/-- The overflow flag of the normalize loop: an increment exceeds the `u8`
range exactly when the panels walked reach index 255. -/
theorem normalizeLoop_flag (names : List (String × Nat)) (l : List (Nat × Panel × String))
    (start : Nat) (h2 : start + l.length ≤ u8Mod) :
    (normalizeLoop names l start).2.2 = decide (l ≠ [] ∧ start + l.length = u8Mod) := by
  induction l generalizing start with
  | nil => simp [normalizeLoop]
  | cons kv rest ih =>
    obtain ⟨op, e⟩ := kv
    simp only [List.length_cons] at h2
    by_cases hs : start + 1 = u8Mod
    · have hr : rest.length = 0 := by omega
      have hre : rest = [] := List.length_eq_zero.mp hr
      subst hre
      simp [normalizeLoop, hs]
    · have hlt : start + 1 < u8Mod := by omega
      have hmod : (start + 1) % u8Mod = start + 1 := Nat.mod_eq_of_lt hlt
      show (decide (u8Mod ≤ start + 1) || (normalizeLoop names rest ((start + 1) % u8Mod)).2.2)
          = _
      rw [hmod, ih (start + 1) (by omega)]
      have hd : decide (u8Mod ≤ start + 1) = false := by
        simp only [decide_eq_false_iff_not]
        omega
      rw [hd, Bool.false_or]
      cases rest with
      | nil =>
        simp only [List.length_nil, List.length_cons]
        have h0 : ¬ (start + 1 + 0 = u8Mod) := by omega
        have h1x : ¬ (start + (0 + 1) = u8Mod) := by omega
        simp [h0, h1x]
      | cons kv' rest' =>
        simp only [ne_eq, List.length_cons]
        apply decide_eq_decide.mpr
        constructor
        · rintro ⟨_, hx⟩
          exact ⟨by simp, by omega⟩
        · rintro ⟨_, hx⟩
          exact ⟨by simp, by omega⟩

/-- Structure of the normalize loop on a well-formed input: re-keyed panels
and the canonical name index. -/
theorem normalizeLoop_structure (names : List (String × Nat))
    (l : List (Nat × Panel × String)) (start : Nat)
    (h1 : ∀ kv ∈ l, names.filter (fun x => x.2 == kv.1) = [(kv.2.2, kv.1)])
    (h2 : start + l.length ≤ u8Mod) :
    (normalizeLoop names l start).1 = List.enumFrom start (l.map Prod.snd) ∧
    (normalizeLoop names l start).2.1 =
      (List.enumFrom start (l.map Prod.snd)).map (fun kv => (kv.2.2, kv.1)) := by
  induction l generalizing start with
  | nil => simp [normalizeLoop]
  | cons kv rest ih =>
    obtain ⟨op, e⟩ := kv
    simp only [List.length_cons] at h2
    have hhead := h1 (op, e) (List.mem_cons_self _ _)
    cases rest with
    | nil =>
      constructor
      · show ((start, e) :: (normalizeLoop names [] ((start + 1) % u8Mod)).1) = _
        simp [normalizeLoop, List.enumFrom]
      · show ((names.filter (fun x => x.2 == op)).map (fun x => (x.1, start)))
            ++ (normalizeLoop names [] ((start + 1) % u8Mod)).2.1 = _
        rw [hhead]
        simp [normalizeLoop, List.enumFrom]
    | cons kv' rest' =>
      have hlt : start + 1 < u8Mod := by
        simp only [List.length_cons] at h2
        omega
      have hmod : (start + 1) % u8Mod = start + 1 := Nat.mod_eq_of_lt hlt
      have ihr := ih (start + 1) (fun x hx => h1 x (List.mem_cons_of_mem _ hx))
        (by simp only [List.length_cons] at h2 ⊢; omega)
      constructor
      · show ((start, e) :: (normalizeLoop names (kv' :: rest') ((start + 1) % u8Mod)).1) = _
        rw [hmod, ihr.1]
        rfl
      · show ((names.filter (fun x => x.2 == op)).map (fun x => (x.1, start)))
            ++ (normalizeLoop names (kv' :: rest') ((start + 1) % u8Mod)).2.1 = _
        rw [hmod, ihr.2, hhead]
        rfl

/-- On a well-formed stack, the name index restricted to a live priority is
exactly that entry's own name. -/
theorem names_filter_singleton {s : UiStack} (hwf : s.WF) {kv : Nat × Panel × String}
    (hkv : kv ∈ s.panels) :
    s.panel_names.filter (fun x => x.2 == kv.1) = [(kv.2.2, kv.1)] := by
  have hcons := hwf.consistent kv hkv
  have hmem : (kv.2.2, kv.1) ∈ s.panel_names := mem_of_hashGet_eq_some hcons
  have hget : btreeGet kv.1 s.panels = some kv.2 :=
    btreeGet_eq_some_of_mem hwf.keysNodup (by rw [← Prod.mk.eta (p := kv)] at hkv; exact hkv)
  apply eq_singleton_of_all_eq
  · exact List.mem_filter.mpr ⟨hmem, by simp⟩
  · intro x hx
    have hxmem : x ∈ s.panel_names := List.mem_of_mem_filter hx
    have hxpr : x.2 = kv.1 := by simpa using List.of_mem_filter hx
    have hback := hwf.backed x hxmem
    rw [UiStack.backedAt_iff] at hback
    obtain ⟨q, hq⟩ := hback
    rw [hxpr, hget] at hq
    injection hq with h
    have hx1 : kv.2.2 = x.1 := congrArg Prod.snd h
    rw [Prod.ext_iff]
    exact ⟨hx1.symm, hxpr⟩
  · exact (List.Nodup.of_map _ hwf.namesNodup).filter _

/-- On a well-formed stack the entry names are pairwise distinct. -/
theorem entryNames_nodup {s : UiStack} (hwf : s.WF) :
    (s.panels.map (fun kv => kv.2.2)).Nodup := by
  apply List.Nodup.map_on
  · intro x hx y hy hxy
    have hcx := hwf.consistent x hx
    have hcy := hwf.consistent y hy
    rw [hxy] at hcx
    rw [hcx] at hcy
    injection hcy with h
    have hgx : btreeGet x.1 s.panels = some x.2 :=
      btreeGet_eq_some_of_mem hwf.keysNodup (by rw [← Prod.mk.eta (p := x)] at hx; exact hx)
    have hgy : btreeGet y.1 s.panels = some y.2 :=
      btreeGet_eq_some_of_mem hwf.keysNodup (by rw [← Prod.mk.eta (p := y)] at hy; exact hy)
    rw [← h] at hgy
    rw [hgx] at hgy
    injection hgy with h2
    rw [Prod.ext_iff]
    exact ⟨h, h2⟩
  · exact List.Nodup.of_map _ hwf.keysNodup

theorem length_panels_le {s : UiStack} (hwf : s.WF) : s.panels.length ≤ u8Mod := by
  have hb : ∀ a ∈ keysOf s.panels, a < u8Mod := by
    intro a ha
    obtain ⟨kv, hkv, hfst⟩ := List.mem_map.mp ha
    rw [← hfst]
    exact hwf.below kv hkv
  have h := length_le_of_nodup_below hwf.keysNodup hb
  rw [keysOf, List.length_map] at h
  exact h

/-- `normalize_priorities` on a well-formed stack yields the canonical
re-keyed stack. -/
theorem normalize_eq_canonical {s : UiStack} (hwf : s.WF) :
    s.normalize_priorities = canonicalStack (s.panels.map Prod.snd) := by
  cases hp : s.panels with
  | nil =>
    have hnames : s.panel_names = [] := by
      rw [List.eq_nil_iff_forall_not_mem]
      intro kv hkv
      have hback := hwf.backed kv hkv
      rw [UiStack.backedAt_iff] at hback
      obtain ⟨q, hq⟩ := hback
      rw [hp] at hq
      simp [btreeGet] at hq
    have : s = ⟨[], []⟩ := by
      cases s
      simp_all
    rw [this]
    rfl
  | cons kv rest =>
    have hne : ¬ s.panels.isEmpty := by rw [hp]; simp
    have hstruct := normalizeLoop_structure s.panel_names s.panels 0
      (fun x hx => names_filter_singleton hwf hx)
      (by simpa using length_panels_le hwf)
    unfold UiStack.normalize_priorities
    rw [if_neg hne]
    unfold canonicalStack
    rw [hstruct.1, hstruct.2]
    rw [List.enum, hp]

/-- The canonical stack of at most 256 entries with distinct names is
well-formed. -/
theorem wf_canonicalStack {entries : List (Panel × String)}
    (hlen : entries.length ≤ u8Mod) (hnd : (entries.map Prod.snd).Nodup) :
    (canonicalStack entries).WF := by
  have hkeys : keysOf (List.enum entries) = List.range entries.length := by
    rw [keysOf, List.enum_map_fst]
  have hsorted : SortedKeys (List.enum entries) := by
    unfold SortedKeys
    rw [hkeys]
    exact List.pairwise_lt_range entries.length
  have hnamekeys : hkeysOf ((List.enum entries).map (fun kv => (kv.2.2, kv.1)))
      = entries.map Prod.snd := by
    rw [hkeysOf, List.map_map]
    have : (Prod.fst ∘ fun kv : Nat × Panel × String => (kv.2.2, kv.1))
        = (fun kv : Nat × Panel × String => kv.2.2) := rfl
    rw [this]
    have h2 : (fun kv : Nat × Panel × String => kv.2.2)
        = (Prod.snd ∘ Prod.snd (β := Panel × String)) := rfl
    rw [h2, ← List.map_map, List.enum_map_snd]
  refine ⟨hsorted, ?_, ?_, ?_, ?_⟩
  · intro kv hkv
    have : kv.1 ∈ keysOf (List.enum entries) := List.mem_map_of_mem Prod.fst hkv
    rw [hkeys, List.mem_range] at this
    omega
  · show (hkeysOf ((List.enum entries).map (fun kv => (kv.2.2, kv.1)))).Nodup
    rw [hnamekeys]
    exact hnd
  · intro kv hkv
    show hashGet kv.2.2 ((List.enum entries).map (fun x => (x.2.2, x.1))) = some kv.1
    apply hashGet_eq_some_of_mem
    · show (hkeysOf ((List.enum entries).map (fun x => (x.2.2, x.1)))).Nodup
      rw [hnamekeys]
      exact hnd
    · exact List.mem_map.mpr ⟨kv, hkv, rfl⟩
  · intro kv hkv
    have hkv' : kv ∈ (List.enum entries).map (fun x => (x.2.2, x.1)) := hkv
    obtain ⟨x, hx, hfx⟩ := List.mem_map.mp hkv'
    rw [UiStack.backedAt_iff]
    refine ⟨x.2.1, ?_⟩
    show btreeGet kv.2 (List.enum entries) = some (x.2.1, kv.1)
    rw [← hfx]
    show btreeGet x.1 (List.enum entries) = some (x.2.1, x.2.2)
    have : (x.2.1, x.2.2) = x.2 := rfl
    rw [this]
    exact btreeGet_eq_some_of_mem (nodupKeys_of_sorted hsorted)
      (by rw [← Prod.mk.eta (p := x)] at hx; exact hx)

/-- `normalize_priorities` preserves well-formedness. -/
theorem wf_normalize {s : UiStack} (hwf : s.WF) : s.normalize_priorities.WF := by
  rw [normalize_eq_canonical hwf]
  apply wf_canonicalStack
  · rw [List.length_map]
    exact length_panels_le hwf
  · rw [List.map_map]
    exact entryNames_nodup hwf

theorem wf_selectProceed {s1 : UiStack} (pr : Nat) (nm : String) (hwf1 : s1.WF) :
    (selectProceed s1 pr nm).1.WF := by
  unfold selectProceed
  dsimp only
  have hnp : ∀ h : Nat, (h + 1) % u8Mod < u8Mod := fun h => Nat.mod_lt _ (by norm_num [u8Mod])
  by_cases hph : pr ≠ s1.get_highest_priority
  · rw [if_pos hph]
    cases hold : btreeGet s1.get_highest_priority s1.panels with
    | none =>
      dsimp only
      exact wf_normalize (wf_set_panel_priority hwf1 (hnp _))
    | some oldentry =>
      obtain ⟨op2, onm2⟩ := oldentry
      dsimp only
      exact wf_normalize (wf_set_panel_priority (wf_replace_value _ hwf1 hold) (hnp _))
  · rw [if_neg hph]
    exact wf_normalize (wf_set_panel_priority hwf1 (hnp _))

theorem wf_select_panel {s : UiStack} (nm : String) (hwf : s.WF) :
    ((s.select_panel nm).1).WF := by
  unfold UiStack.select_panel UiStack.select_panel_full
  cases hn : hashGet nm s.panel_names with
  | none => exact hwf
  | some pr =>
    dsimp only
    cases hent : btreeGet pr s.panels with
    | none => exact hwf
    | some entry =>
      obtain ⟨panel, enm⟩ := entry
      dsimp only
      by_cases hfoc : (panel.set_focus true).2 = false
      · rw [if_pos hfoc]
        exact wf_replace_value _ hwf hent
      · rw [if_neg hfoc]
        exact wf_selectProceed pr nm (wf_replace_value _ hwf hent)

theorem guarded_cons {s : UiStack} {op : StackOp} {ops : List StackOp} :
    Guarded s (op :: ops) ↔ OpGuard s op ∧ Guarded (applyOp s op) ops := by
  constructor
  · intro h
    constructor
    · have h0 := h ⟨0, by simp⟩
      simpa [applyOps] using h0
    · intro i
      have hi := h ⟨i.1 + 1, by simp [Nat.succ_lt_succ i.2]⟩
      simpa [applyOps, List.take_succ_cons] using hi
  · rintro ⟨h0, h⟩ i
    match i with
    | ⟨0, _⟩ => simpa [applyOps] using h0
    | ⟨j + 1, hj⟩ =>
      have := h ⟨j, by simp at hj; omega⟩
      simpa [applyOps, List.take_succ_cons] using this

theorem wf_applyOp {s : UiStack} {op : StackOp} (hwf : s.WF) (hg : OpGuard s op) :
    (applyOp s op).WF := by
  cases op with
  | add p pr nm => exact wf_add_panel p hwf hg
  | removeByPriority pr => exact wf_remove_panel pr hwf
  | removeByName nm => exact wf_remove_panel_by_name nm hwf
  | selectPanel nm => exact wf_select_panel nm hwf

theorem wf_applyOps {s : UiStack} {ops : List StackOp} (hwf : s.WF) (hg : Guarded s ops) :
    (applyOps s ops).WF := by
  induction ops generalizing s with
  | nil => exact hwf
  | cons op rest ih =>
    rw [guarded_cons] at hg
    have h1 : (applyOp s op).WF := wf_applyOp hwf hg.1
    exact ih h1 hg.2

/-! ## Computation lemmas for a successful `select_panel` (claim C7) -/

theorem set_focus_accepts {p : Panel} (h : p.accepts = true) :
    p.set_focus true = ({ p with focused := true }, true) := by
  simp [Panel.set_focus, h]

theorem set_focus_focused {p : Panel} (h1 : p.accepts = true) (h2 : p.focused = true) :
    p.set_focus true = (p, true) := by
  cases p
  simp only at h1 h2
  subst h1
  subst h2
  simp [Panel.set_focus]

theorem keysOf_enum (es : List (Panel × String)) :
    keysOf (List.enum es) = List.range es.length := by
  rw [keysOf, List.enum_map_fst]

theorem sortedKeys_enum (es : List (Panel × String)) : SortedKeys (List.enum es) := by
  unfold SortedKeys
  rw [keysOf_enum]
  exact List.pairwise_lt_range es.length

/-- A successful focus directs `select_panel_full` into `selectProceed` on
the focus-updated stack. -/
theorem select_panel_eq_proceed {s : UiStack} {pr : Nat} {panel : Panel} {enm nm : String}
    (hn : hashGet nm s.panel_names = some pr)
    (hent : btreeGet pr s.panels = some (panel, enm))
    (hacc : panel.accepts = true) :
    s.select_panel_full nm =
      selectProceed ⟨btreeInsert pr ({ panel with focused := true }, enm) s.panels,
        s.panel_names⟩ pr nm := by
  unfold UiStack.select_panel_full
  rw [hn]
  dsimp only
  rw [hent]
  dsimp only
  rw [set_focus_accepts hacc]
  dsimp only
  rw [if_neg (by simp : ¬ (true = false))]

/-- When the entry at `pr` is already focused, the stack is not modified by
the `set_focus` step. -/
theorem select_panel_eq_proceed_focused {s : UiStack} {pr : Nat} {panel : Panel}
    {enm nm : String}
    (hn : hashGet nm s.panel_names = some pr)
    (hent : btreeGet pr s.panels = some (panel, enm))
    (hacc : panel.accepts = true) (hfoc : panel.focused = true)
    (hsorted : SortedKeys s.panels) :
    s.select_panel_full nm = selectProceed s pr nm := by
  unfold UiStack.select_panel_full
  rw [hn]
  dsimp only
  rw [hent]
  dsimp only
  rw [set_focus_focused hacc hfoc]
  dsimp only
  rw [btreeInsert_eq_self_of_mem hsorted (mem_of_btreeGet_eq_some hent)]
  rw [if_neg (by simp : ¬ (true = false))]

/-- `selectProceed` on the already-topmost entry skips the defocus branch
and bumps the priority to `pr + 1`. -/
theorem selectProceed_topmost {s1 : UiStack} {pr : Nat} (nm : String)
    (hpr : s1.get_highest_priority = pr) (hnp : pr + 1 < u8Mod) :
    selectProceed s1 pr nm =
      ((s1.set_panel_priority_by_name (pr + 1) nm).normalize_priorities, true,
        decide (u8Mod ≤ pr + 1)) := by
  unfold selectProceed
  try dsimp only
  rw [hpr]
  rw [if_neg (by simp)]
  rw [hpr, Nat.mod_eq_of_lt hnp]

/-- `set_panel_priority_by_name` when the move actually happens. -/
theorem set_priority_move {s : UiStack} {np pr : Nat} {nm : String} {entry : Panel × String}
    (hn : hashGet nm s.panel_names = some pr) (hne : np ≠ pr)
    (hnone : btreeGet np s.panels = none) (hent : btreeGet pr s.panels = some entry) :
    s.set_panel_priority_by_name np nm =
      ⟨btreeInsert np entry (btreeRemove pr s.panels), hashInsert nm np s.panel_names⟩ := by
  unfold UiStack.set_panel_priority_by_name
  rw [hn]
  dsimp only
  rw [if_neg hne, hnone]
  rw [if_neg (by simp : ¬ ((none : Option (Panel × String)).isSome = true))]
  rw [hent]

/-- Selecting the topmost, focus-accepting panel of a well-formed stack
rewrites the stack into the canonical re-keyed form in which that panel is
focused and carries the top key. -/
theorem select_topmost_eq {s : UiStack} {hp : Nat} {q : Panel} {nm : String}
    (hwf : s.WF) (hlast : s.panels.getLast? = some (hp, q, nm))
    (hacc : q.accepts = true) (hhp : hp + 1 < u8Mod) :
    (s.select_panel nm).1 =
      canonicalStack (s.panels.dropLast.map Prod.snd ++ [({ q with focused := true }, nm)]) := by
  have hsplit : s.panels = s.panels.dropLast ++ [(hp, q, nm)] :=
    (List.dropLast_append_getLast? _ (Option.mem_def.mpr hlast)).symm
  set init := s.panels.dropLast with hinit
  have hsorted := hwf.sorted
  rw [hsplit] at hsorted
  rw [sortedKeys_concat_iff] at hsorted
  have hkeys : ∀ a ∈ keysOf init, a < hp := hsorted.2
  have hmem : (hp, q, nm) ∈ s.panels := by
    rw [hsplit]
    exact List.mem_append_right _ (List.mem_cons_self _ _)
  have hn : hashGet nm s.panel_names = some hp := hwf.consistent (hp, q, nm) hmem
  have hent : btreeGet hp s.panels = some (q, nm) :=
    btreeGet_eq_some_of_mem hwf.keysNodup hmem
  set q₁ : Panel := { q with focused := true } with hq₁
  -- the focus-updated stack
  have hins : btreeInsert hp (q₁, nm) s.panels = init ++ [(hp, (q₁, nm))] := by
    rw [hsplit]
    exact btreeInsert_replace_concat _ _ hkeys
  set s1 : UiStack := ⟨btreeInsert hp (q₁, nm) s.panels, s.panel_names⟩ with hs1
  have hwf1 : s1.WF := wf_replace_value q₁ hwf hent
  have hs1panels : s1.panels = init ++ [(hp, (q₁, nm))] := hins
  have hs1top : s1.get_highest_priority = hp := by
    rw [get_highest_eq_keyLast, hs1panels, keyLast_concat]
  have hs1sorted : SortedKeys s1.panels := hwf1.sorted
  -- unfold the select
  unfold UiStack.select_panel
  rw [select_panel_eq_proceed hn hent hacc]
  rw [selectProceed_topmost nm hs1top hhp]
  dsimp only
  -- the priority move
  have hn1 : hashGet nm s1.panel_names = some hp := hn
  have hnone : btreeGet (hp + 1) s1.panels = none := by
    apply btreeGet_eq_none_of_keyLast_lt hs1sorted
    rw [hs1panels, keyLast_concat]
    omega
  have hent1 : btreeGet hp s1.panels = some (q₁, nm) := by
    rw [hs1panels]
    apply btreeGet_eq_some_of_mem
    · have := hwf1.keysNodup
      rw [hs1panels] at this
      exact this
    · exact List.mem_append_right _ (List.mem_cons_self _ _)
  rw [set_priority_move hn1 (by omega) hnone hent1]
  -- shape of the moved stack
  have hrem : btreeRemove hp s1.panels = init := by
    rw [hs1panels]
    exact btreeRemove_concat _ (fun hmem2 => absurd (hkeys hp hmem2) (lt_irrefl hp))
  have hins2 : btreeInsert (hp + 1) (q₁, nm) init = init ++ [(hp + 1, (q₁, nm))] :=
    btreeInsert_append_of_gt _ (fun a ha => by have := hkeys a ha; omega)
  rw [hrem, hins2]
  -- this stack is well-formed, so normalize gives the canonical form
  have hwf3 : UiStack.WF ⟨init ++ [(hp + 1, (q₁, nm))], hashInsert nm (hp + 1) s.panel_names⟩ := by
    have := @wf_set_panel_priority _ (hp + 1) nm hwf1 hhp
    rw [set_priority_move hn1 (by omega) hnone hent1, hrem, hins2] at this
    exact this
  rw [normalize_eq_canonical hwf3]
  simp only [List.map_append, List.map_cons, List.map_nil]

/-- Selecting the topmost entry of a canonical stack — already focused,
holding the top key — reproduces the same canonical stack. -/
theorem select_canonical_id {es : List (Panel × String)} {qq : Panel} {nm : String}
    (hacc : qq.accepts = true) (hfoc : qq.focused = true)
    (hwfA : (canonicalStack (es ++ [(qq, nm)])).WF)
    (hlen : es.length + 1 < u8Mod) :
    ((canonicalStack (es ++ [(qq, nm)])).select_panel nm).1
      = canonicalStack (es ++ [(qq, nm)]) := by
  set A := canonicalStack (es ++ [(qq, nm)]) with hA
  set m := es.length with hm
  have hApanels : A.panels = List.enum es ++ [(m, (qq, nm))] := by
    show (es ++ [(qq, nm)]).enum = _
    simp [List.enum_append]
  have hmem : (m, (qq, nm)) ∈ A.panels := by
    rw [hApanels]
    exact List.mem_append_right _ (List.mem_cons_self _ _)
  have hn : hashGet nm A.panel_names = some m := hwfA.consistent (m, (qq, nm)) hmem
  have hent : btreeGet m A.panels = some (qq, nm) :=
    btreeGet_eq_some_of_mem hwfA.keysNodup hmem
  have htop : A.get_highest_priority = m := by
    rw [get_highest_eq_keyLast, hApanels, keyLast_concat]
  unfold UiStack.select_panel
  rw [select_panel_eq_proceed_focused hn hent hacc hfoc hwfA.sorted]
  rw [selectProceed_topmost nm htop hlen]
  dsimp only
  have hnone : btreeGet (m + 1) A.panels = none := by
    apply btreeGet_eq_none_of_keyLast_lt hwfA.sorted
    rw [hApanels, keyLast_concat]
    omega
  rw [set_priority_move hn (by omega) hnone hent]
  have hkeyslt : ∀ a ∈ keysOf (List.enum es), a < m := by
    intro a ha
    rw [keysOf_enum, List.mem_range] at ha
    exact ha
  have hrem : btreeRemove m A.panels = List.enum es := by
    rw [hApanels]
    exact btreeRemove_concat _ (fun hmem2 => absurd (hkeyslt m hmem2) (lt_irrefl m))
  have hins : btreeInsert (m + 1) (qq, nm) (List.enum es)
      = List.enum es ++ [(m + 1, (qq, nm))] :=
    btreeInsert_append_of_gt _ (fun a ha => by have := hkeyslt a ha; omega)
  rw [hrem, hins]
  have hwf3 : UiStack.WF ⟨List.enum es ++ [(m + 1, (qq, nm))],
      hashInsert nm (m + 1) A.panel_names⟩ := by
    have := @wf_set_panel_priority _ (m + 1) nm hwfA hlen
    rw [set_priority_move hn (by omega) hnone hent, hrem, hins] at this
    exact this
  rw [normalize_eq_canonical hwf3]
  show canonicalStack ((List.enum es ++ [(m + 1, (qq, nm))]).map Prod.snd) = _
  rw [List.map_append, List.enum_map_snd]
  rfl

/-- Selecting the topmost, focus-accepting panel twice gives the same stack
as selecting it once (below the `u8` bound). -/
theorem select_topmost_idempotent {s : UiStack} {hp : Nat} {q : Panel} {nm : String}
    (hwf : s.WF) (hlast : s.panels.getLast? = some (hp, q, nm))
    (hacc : q.accepts = true) (hhp : hp + 1 < u8Mod) :
    (((s.select_panel nm).1).select_panel nm).1 = (s.select_panel nm).1 := by
  have h1 := select_topmost_eq hwf hlast hacc hhp
  have hwfA : ((s.select_panel nm).1).WF := wf_select_panel nm hwf
  rw [h1] at hwfA ⊢
  have hsplit : s.panels = s.panels.dropLast ++ [(hp, q, nm)] :=
    (List.dropLast_append_getLast? _ (Option.mem_def.mpr hlast)).symm
  have hlen : (s.panels.dropLast.map Prod.snd).length + 1 < u8Mod := by
    have hlen1 : s.panels.length ≤ hp + 1 := by
      have hble : ∀ a ∈ keysOf s.panels, a < hp + 1 := by
        intro a ha
        obtain ⟨kv, hkv, hfst⟩ := List.mem_map.mp ha
        have : kv.1 ≤ keyLast s.panels :=
          le_keyLast_of_mem hwf.sorted (by rw [← Prod.mk.eta (p := kv)] at hkv; exact hkv)
        have hkl : keyLast s.panels = hp := by
          rw [← get_highest_eq_keyLast]
          rw [get_highest_eq_keyLast]
          show keyLast s.panels = hp
          rw [hsplit, keyLast_concat]
        omega
      have h := length_le_of_nodup_below hwf.keysNodup hble
      rw [keysOf, List.length_map] at h
      exact h
    have hlen2 : s.panels.length = s.panels.dropLast.length + 1 := by
      conv_lhs => rw [hsplit]
      simp
    rw [List.length_map]
    omega
  exact select_canonical_id hacc rfl hwfA hlen

/-! ## Overflow instrumentation (claim C9) -/

theorem keyLast_eq_getLast_keysOf {α : Type} (l : List (Nat × α)) :
    keyLast l = ((keysOf l).getLast?).getD 0 := by
  unfold keyLast
  rw [keysOf, List.getLast?_map]
  cases l.getLast? <;> simp

theorem keyLast_congr_keys {α : Type} {l l' : List (Nat × α)} (h : keysOf l = keysOf l') :
    keyLast l = keyLast l' := by
  rw [keyLast_eq_getLast_keysOf, keyLast_eq_getLast_keysOf, h]

theorem get_highest_congr {s s' : UiStack} (h : keysOf s'.panels = keysOf s.panels) :
    s'.get_highest_priority = s.get_highest_priority := by
  rw [get_highest_eq_keyLast, get_highest_eq_keyLast]
  exact keyLast_congr_keys h

/-- On a key-sorted stack the overflow flag of `selectProceed` records
exactly whether `get_highest_priority() + 1` exceeds the `u8` range. -/
theorem selectProceed_flag (s1 : UiStack) (pr : Nat) (nm : String)
    (hs : SortedKeys s1.panels) :
    (selectProceed s1 pr nm).2.2 = decide (u8Mod ≤ s1.get_highest_priority + 1) := by
  unfold selectProceed
  try dsimp only
  by_cases hph : pr ≠ s1.get_highest_priority
  · rw [if_pos hph]
    cases hold : btreeGet s1.get_highest_priority s1.panels with
    | none => rfl
    | some oldentry =>
      obtain ⟨op2, onm2⟩ := oldentry
      dsimp only
      have hkeys : keysOf (btreeInsert s1.get_highest_priority
          ((op2.set_focus false).1, onm2) s1.panels) = keysOf s1.panels := by
        apply keysOf_btreeInsert_of_mem _ hs
        exact List.mem_map_of_mem Prod.fst (mem_of_btreeGet_eq_some hold)
      have hsame : UiStack.get_highest_priority ⟨btreeInsert s1.get_highest_priority
          ((op2.set_focus false).1, onm2) s1.panels, s1.panel_names⟩
          = s1.get_highest_priority := get_highest_congr hkeys
      rw [hsame]
  · rw [if_neg hph]

/-- The overflow flag of a successful `select_panel` call. -/
theorem select_panel_flag {s : UiStack} {pr : Nat} {panel : Panel} {enm nm : String}
    (hs : SortedKeys s.panels)
    (hn : hashGet nm s.panel_names = some pr)
    (hent : btreeGet pr s.panels = some (panel, enm))
    (hacc : panel.accepts = true) :
    (s.select_panel_full nm).2.2 = decide (u8Mod ≤ s.get_highest_priority + 1) := by
  rw [select_panel_eq_proceed hn hent hacc]
  have hkeys : keysOf (btreeInsert pr ({ panel with focused := true }, enm) s.panels)
      = keysOf s.panels := by
    apply keysOf_btreeInsert_of_mem _ hs
    exact List.mem_map_of_mem Prod.fst (mem_of_btreeGet_eq_some hent)
  have hsorted1 : SortedKeys (btreeInsert pr ({ panel with focused := true }, enm) s.panels) :=
    btreeInsert_sorted hs
  rw [selectProceed_flag _ _ _ hsorted1]
  have hsame : UiStack.get_highest_priority ⟨btreeInsert pr
      ({ panel with focused := true }, enm) s.panels, s.panel_names⟩
      = s.get_highest_priority := get_highest_congr hkeys
  rw [hsame]

/-- The overflow flag of `normalize_priorities` records exactly whether the
`u8` index increment runs past 255, i.e. whether 256 live panels are
walked. -/
theorem normalize_overflows_iff {s : UiStack} (hlen : s.panels.length ≤ u8Mod) :
    s.normalize_overflows = decide (s.panels ≠ [] ∧ s.panels.length = u8Mod) := by
  unfold UiStack.normalize_overflows
  by_cases hemp : s.panels.isEmpty
  · rw [if_pos hemp]
    have : s.panels = [] := List.isEmpty_iff.mp hemp
    simp [this]
  · rw [if_neg hemp]
    have := normalizeLoop_flag s.panel_names s.panels 0 (by omega)
    rw [this]
    simp

/-! ## Facts about the orchestrator -/

theorem apply_data_buffer (ui : Ui) (d : RepoData) :
    (apply_data ui d).1.data_response_data = ui.data_response_data := by
  cases d with
  | issues repo =>
    cases repo with
    | none => rfl
    | some payload =>
      unfold apply_data
      cases h : ui.ui_stack.get_panel_by_name ISSUES_VIEW_NAME with
      | none => rfl
      | some v =>
        obtain ⟨pr, p, pname⟩ := v
        rfl
  | pullRequests repo =>
    cases repo with
    | none => rfl
    | some payload =>
      unfold apply_data
      cases h : ui.ui_stack.get_panel_by_name PULL_REQUESTS_VIEW_NAME with
      | none => rfl
      | some v =>
        obtain ⟨pr, p, pname⟩ := v
        rfl
  | projects repo =>
    cases repo with
    | none => rfl
    | some payload =>
      unfold apply_data
      cases h : ui.ui_stack.get_panel_by_name PROJECTS_VIEW_NAME with
      | none => rfl
      | some v =>
        obtain ⟨pr, p, pname⟩ := v
        rfl
  | activeRemote remote => rfl
  | issueInspect => rfl
  | pullRequestInspect => rfl
  | projectInspect => rfl

theorem drain_foldl_buffer (buffer : List RepoData)
    (acc : Ui × List (String × String) × Bool) :
    (buffer.foldl drain_step acc).1.data_response_data = acc.1.data_response_data := by
  induction buffer generalizing acc with
  | nil => rfl
  | cons d rest ih =>
    rw [List.foldl_cons, ih]
    show (apply_data acc.1 d).1.data_response_data = _
    rw [apply_data_buffer]

theorem tick_drains_at_most_one (ui : Ui) (queue : List RepoData) :
    (ui.tick queue).2.1 = queue.drop 1 ∧
    (ui.tick queue).2.2.processed = ui.data_response_data ++ queue.take 1 ∧
    (ui.tick queue).1.data_response_data = [] := by
  refine ⟨rfl, rfl, ?_⟩
  show ((ui.data_response_data ++ queue.take 1).foldl drain_step
    ({ ui with data_response_data := [] }, [], false)).1.data_response_data = []
  rw [drain_foldl_buffer]

theorem tick_remote_change (ui : Ui) (X : String) (rest : List RepoData)
    (hbuf : ui.data_response_data = []) :
    (ui.tick (RepoData.activeRemote X :: rest)).2.2.set_calls = [(ui.repo_root, X)] ∧
    (ui.tick (RepoData.activeRemote X :: rest)).1.active_remote = some X ∧
    (ui.tick (RepoData.activeRemote X :: rest)).2.2.requests =
      [RequestType.issues, RequestType.pullRequests, RequestType.projects] := by
  unfold Ui.tick
  rw [hbuf]
  exact ⟨rfl, rfl, rfl⟩

/-! ## Facts about the scheduler -/

theorem eventLoopStep_tick_iff (s : EventLoopState) (arrival : Option Nat)
    (hinv : s.last_tick ≤ s.now) :
    (((eventLoopStep s arrival).2.map Prod.snd = some Event.tick) ↔
      (pollTimesOut s arrival ∧ TICK_RATE ≤ (eventLoopStep s arrival).1.now - s.last_tick)) := by
  unfold eventLoopStep pollTimesOut
  cases arrival with
  | none =>
    dsimp only
    rw [if_pos (by unfold TICK_RATE at *; omega)]
    simp only [Option.map_some', true_and]
    constructor
    · intro _
      unfold TICK_RATE at *
      omega
    · intro _
      trivial
  | some d =>
    dsimp only
    by_cases hd : d ≤ TICK_RATE - (s.now - s.last_tick)
    · rw [if_pos hd]
      simp only [Option.map_some']
      constructor
      · intro h
        exact absurd h (by simp)
      · rintro ⟨h1, _⟩
        exact absurd hd h1
    · rw [if_neg hd]
      rw [if_pos (by unfold TICK_RATE at *; omega)]
      simp only [Option.map_some', true_and]
      constructor
      · intro _
        refine ⟨hd, ?_⟩
        unfold TICK_RATE at *
        omega
      · intro _
        trivial

theorem eventLoopRun_no_input (n : Nat) (t : Nat) :
    eventLoopRun ⟨t, t⟩ (List.replicate n none) =
      (⟨t + TICK_RATE * n, t + TICK_RATE * n⟩,
       (List.range n).map (fun i => (t + TICK_RATE * (i + 1), Event.tick))) := by
  induction n generalizing t with
  | zero => simp [eventLoopRun]
  | succ n' ih =>
    rw [List.replicate_succ]
    unfold eventLoopRun
    have hstep : eventLoopStep ⟨t, t⟩ none = (⟨t + TICK_RATE, t + TICK_RATE⟩,
        some (t + TICK_RATE, Event.tick)) := by
      unfold eventLoopStep
      dsimp only
      rw [if_pos (by unfold TICK_RATE; omega)]
      simp
    rw [hstep]
    dsimp only
    rw [ih (t + TICK_RATE)]
    refine Prod.ext ?_ ?_
    · show (⟨t + TICK_RATE + TICK_RATE * n', t + TICK_RATE + TICK_RATE * n'⟩ : EventLoopState)
        = ⟨t + TICK_RATE * (n' + 1), t + TICK_RATE * (n' + 1)⟩
      have : t + TICK_RATE + TICK_RATE * n' = t + TICK_RATE * (n' + 1) := by ring
      rw [this]
    · show (t + TICK_RATE, Event.tick) ::
          (List.range n').map (fun i => (t + TICK_RATE + TICK_RATE * (i + 1), Event.tick))
        = (List.range (n' + 1)).map (fun i => (t + TICK_RATE * (i + 1), Event.tick))
      rw [List.range_succ_eq_map]
      rw [List.map_cons, List.map_map]
      refine congrArg₂ _ (by norm_num) ?_
      apply List.map_congr_left
      intro i _
      show (t + TICK_RATE + TICK_RATE * (i + 1), Event.tick)
        = (t + TICK_RATE * (Nat.succ i + 1), Event.tick)
      refine congrArg₂ _ ?_ rfl
      simp only [Nat.succ_eq_add_one]
      ring

theorem eventLoopRun_continuous (n : Nat) (t : Nat) :
    eventLoopRun ⟨t + TICK_RATE, t⟩ (List.replicate n (some 0)) =
      (⟨t + TICK_RATE, t⟩, List.replicate n (t + TICK_RATE, Event.input)) := by
  induction n with
  | zero => simp [eventLoopRun]
  | succ n' ih =>
    rw [List.replicate_succ]
    unfold eventLoopRun
    have hstep : eventLoopStep ⟨t + TICK_RATE, t⟩ (some 0) =
        (⟨t + TICK_RATE, t⟩, some (t + TICK_RATE, Event.input)) := by
      unfold eventLoopStep
      dsimp only
      rw [if_pos (by omega)]
      simp
    rw [hstep]
    dsimp only
    rw [ih]
    rw [List.replicate_succ]
    rfl

theorem eventLoopRun_starved (n : Nat) (t : Nat) :
    eventLoopRun ⟨t, t⟩ (some TICK_RATE :: List.replicate n (some 0)) =
      (⟨t + TICK_RATE, t⟩, List.replicate (n + 1) (t + TICK_RATE, Event.input)) := by
  unfold eventLoopRun
  have hstep : eventLoopStep ⟨t, t⟩ (some TICK_RATE) =
      (⟨t + TICK_RATE, t⟩, some (t + TICK_RATE, Event.input)) := by
    unfold eventLoopStep
    dsimp only
    rw [if_pos (by omega)]
  rw [hstep]
  dsimp only
  rw [eventLoopRun_continuous]
  rw [List.replicate_succ]
  rfl

/-! ## Facts about the credential wait loop -/

theorem waitLoop_counts (exited : Nat → Bool) (fuel idx : Nat) (stats : WaitStats) :
    (waitLoop exited fuel idx stats).2.polls ≤ stats.polls + fuel ∧
    (waitLoop exited fuel idx stats).2.sleeps ≤ stats.sleeps + fuel := by
  induction fuel generalizing idx stats with
  | zero => exact ⟨Nat.le_refl _, Nat.le_refl _⟩
  | succ fuel' ih =>
    unfold waitLoop
    by_cases h : exited idx
    · rw [if_pos h]
      dsimp only
      exact ⟨by omega, by omega⟩
    · rw [if_neg h]
      have := ih (idx + 1) { stats with polls := stats.polls + 1, sleeps := stats.sleeps + 1 }
      dsimp only at this
      exact ⟨by omega, by omega⟩

theorem waitLoop_all_false (exited : Nat → Bool) (fuel idx : Nat) (stats : WaitStats)
    (h : ∀ j, j < fuel → exited (idx + j) = false) :
    waitLoop exited fuel idx stats =
      (false, ⟨stats.polls + fuel, stats.sleeps + fuel, true⟩) := by
  induction fuel generalizing idx stats with
  | zero => rfl
  | succ fuel' ih =>
    unfold waitLoop
    have h0 : exited idx = false := by
      have := h 0 (by omega)
      simpa using this
    rw [if_neg (by rw [h0]; simp)]
    rw [ih (idx + 1) _ (fun j hj => by
      have := h (j + 1) (by omega)
      rw [← this]
      refine congrArg _ ?_
      omega)]
    dsimp only
    have h1 : stats.polls + 1 + fuel' = stats.polls + (fuel' + 1) := by omega
    have h2 : stats.sleeps + 1 + fuel' = stats.sleeps + (fuel' + 1) := by omega
    rw [h1, h2]

theorem waitLoop_success (exited : Nat → Bool) (fuel idx : Nat) (stats : WaitStats)
    (h : (waitLoop exited fuel idx stats).1 = true) :
    ∃ j, j < fuel ∧ exited (idx + j) = true := by
  induction fuel generalizing idx stats with
  | zero => simp [waitLoop] at h
  | succ fuel' ih =>
    unfold waitLoop at h
    by_cases hx : exited idx
    · exact ⟨0, by omega, by simpa using hx⟩
    · rw [if_neg hx] at h
      obtain ⟨j, hj, hje⟩ := ih (idx + 1) _ h
      refine ⟨j + 1, by omega, ?_⟩
      rw [← hje]
      refine congrArg _ ?_
      omega

/-! ## Facts about the remote picker -/

theorem update_items_quit (re : RemoteExplorer) (oracle : GitOracle) :
    (update_items re oracle).1.quit = re.quit := by
  unfold update_items
  cases oracle.remote_names <;> rfl

theorem add_to_mask_quit (re : RemoteExplorer) (c : Char) (oracle : GitOracle) :
    (add_to_mask re c oracle).1.quit = re.quit := by
  unfold add_to_mask
  rw [update_items_quit]

theorem remove_from_mask_quit (re : RemoteExplorer) (oracle : GitOracle) :
    (remove_from_mask re oracle).1.quit = re.quit := by
  unfold remove_from_mask
  by_cases h : re.remote_mask.length = 0
  · rw [if_pos h]
  · rw [if_neg h]
    rw [update_items_quit]

theorem select_remote_quit (re : RemoteExplorer) (oracle : GitOracle) :
    ((select_remote re oracle).1.quit = true) ↔ (re.quit = true ∨ SelectOk re oracle) := by
  unfold select_remote SelectOk
  cases hsel : re.selected with
  | none =>
    simp only [hsel]
    constructor
    · intro h
      exact Or.inl h
    · rintro (h | ⟨i, r, u, hi, _⟩)
      · exact h
      · exact Option.noConfusion hi
  | some index =>
    dsimp only
    cases hget : re.items.get? index with
    | none =>
      dsimp only
      constructor
      · intro h
        exact Or.inl h
      · rintro (h | ⟨i, r, u, hi, hr, _⟩)
        · exact h
        · injection hi with hi
          rw [← hi] at hr
          rw [hget] at hr
          exact Option.noConfusion hr
    | some remote =>
      dsimp only
      cases hurl : oracle.url_for_name remote with
      | error e =>
        dsimp only
        constructor
        · intro h
          exact Or.inl h
        · rintro (h | ⟨i, r, u, hi, hr, hu, _⟩)
          · exact h
          · injection hi with hi
            rw [← hi] at hr
            rw [hget] at hr
            injection hr with hr
            rw [← hr] at hu
            rw [hurl] at hu
            exact Except.noConfusion hu
      | ok url =>
        dsimp only
        by_cases hsend : oracle.send_ok
        · rw [if_pos hsend]
          constructor
          · intro _
            exact Or.inr ⟨index, remote, url, rfl, hget, hurl, hsend⟩
          · intro _
            rfl
        · rw [if_neg hsend]
          constructor
          · intro h
            exact Or.inl h
          · rintro (h | ⟨i, r, u, _, _, _, hs⟩)
            · exact h
            · exact absurd hs hsend

theorem handle_input_consumes (re : RemoteExplorer) (key : KeyEvent) (oracle : GitOracle) :
    (re.handle_input key oracle).2 = true := rfl

theorem handle_input_quit_iff (re : RemoteExplorer) (key : KeyEvent) (oracle : GitOracle) :
    ((re.handle_input key oracle).1.quit = true) ↔
      (re.quit = true ∨ key = ⟨KeyCode.esc, KeyMod.noMod⟩ ∨
       (key = ⟨KeyCode.enter, KeyMod.noMod⟩ ∧ SelectOk re oracle)) := by
  obtain ⟨code, mods⟩ := key
  unfold RemoteExplorer.handle_input
  cases mods with
  | noMod =>
    cases code with
    | char c =>
      dsimp only
      rw [add_to_mask_quit]
      simp [KeyEvent.mk.injEq]
    | enter =>
      dsimp only
      rw [select_remote_quit]
      simp [KeyEvent.mk.injEq]
    | esc =>
      dsimp only
      simp [KeyEvent.mk.injEq]
    | tab =>
      dsimp only
      show (next_entry re).quit = true ↔ _
      have : (next_entry re).quit = re.quit := rfl
      rw [this]
      simp [KeyEvent.mk.injEq]
    | backTab =>
      dsimp only
      simp [KeyEvent.mk.injEq]
    | backspace =>
      dsimp only
      rw [remove_from_mask_quit]
      simp [KeyEvent.mk.injEq]
    | otherKey =>
      dsimp only
      simp [KeyEvent.mk.injEq]
  | shift =>
    cases code with
    | char c =>
      dsimp only
      rw [add_to_mask_quit]
      simp [KeyEvent.mk.injEq]
    | backTab =>
      dsimp only
      show (previous_entry re).quit = true ↔ _
      have : (previous_entry re).quit = re.quit := rfl
      rw [this]
      simp [KeyEvent.mk.injEq]
    | enter =>
      dsimp only
      simp [KeyEvent.mk.injEq]
    | esc =>
      dsimp only
      simp [KeyEvent.mk.injEq]
    | tab =>
      dsimp only
      simp [KeyEvent.mk.injEq]
    | backspace =>
      dsimp only
      simp [KeyEvent.mk.injEq]
    | otherKey =>
      dsimp only
      simp [KeyEvent.mk.injEq]
  | control =>
    dsimp only
    simp [KeyEvent.mk.injEq]
  | otherMod =>
    dsimp only
    simp [KeyEvent.mk.injEq]

theorem ui_dispatch_top (rest : List (KeyEvent → Bool)) (key : KeyEvent)
    (h : KeyEvent → Bool) (hh : h key = true) :
    ui_handle_input_model (h :: rest) key = (true, 1, false) := by
  unfold ui_handle_input_model ui_dispatch_input
  rw [if_pos hh]
  rfl

/-! ## The claims -/

/-- C1 (counterexample): the invariant is not maintained by every
`add_panel`/`remove_panel`/`select_panel` sequence.  Adding a panel under a
name already present at a different priority (`add_panel(A, 5, "a")` then
`add_panel(B, 7, "a")`) leaves the entry at priority 5 carrying name `"a"`
while the name index maps `"a"` to 7. -/
theorem C1_counterexample :
    ¬ UiStack.Invariant (runOps [StackOp.add panelA 5 "a", StackOp.add panelA 7 "a"]) := by
  decide

/-- C1 (amended): for every sequence of `add_panel`, `remove_panel` (by
priority or by name) and `select_panel` calls starting from the empty
`UiStack`, in which every `add_panel` uses a name absent from the name
index and an unoccupied priority (or re-adds the same name at its current
priority), no two live entries share a priority and the name index maps
each live panel's name to that entry's actual priority. -/
theorem C1_guarded_invariant (ops : List StackOp) (hg : Guarded UiStack.new ops) :
    (runOps ops).Invariant :=
  (wf_applyOps wf_new hg).invariant

/-- C1 witness: the start-up sequence of the orchestrator is guarded and
the invariant holds after running it. -/
theorem C1_witness :
    Guarded UiStack.new opsEx ∧ (runOps opsEx).Invariant :=
  ⟨by decide, C1_guarded_invariant opsEx (by decide)⟩

/-- C2 (counterexample): a tick does not remove every queued envelope —
with two results queued, one is still on the channel after the tick
(`tick` performs a single `try_recv`, not a drain loop). -/
theorem C2_counterexample :
    (uiEx.tick [RepoData.issues none, RepoData.issues none]).2.1 ≠ [] := by
  decide

/-- C2 (amended): a single `tick()` dequeues at most one envelope — the
oldest — from the result channel; it applies, without blocking, the
previously buffered envelopes plus that one, and empties the internal
buffer; every other queued result stays on the channel for a later tick. -/
theorem C2_single_dequeue (ui : Ui) (queue : List RepoData) :
    (ui.tick queue).2.1 = queue.drop 1 ∧
    (ui.tick queue).2.2.processed = ui.data_response_data ++ queue.take 1 ∧
    (ui.tick queue).1.data_response_data = [] :=
  tick_drains_at_most_one ui queue

/-- C3: credential resolution tries the environment variable, the OS
secret store, the credential-helper subprocess (parsing the `password=`
line of its output), and the trimmed token file, in that order with first
success winning and no further source consulted; when all four fail the
result is an error, not a panic or partial value. -/
theorem C3_credential_chain (cfg : CredConfig) (token_type : String)
    (env_token keyring_token : Option String)
    (helper_outcome : Except String (List String)) (fs : String → Option String) :
    (∀ t, env_token = some t →
      get_access_token cfg token_type env_token keyring_token helper_outcome fs
        = (Except.ok t, [CredSource.envVar])) ∧
    (env_token = none → ∀ t, keyring_token = some t →
      get_access_token cfg token_type env_token keyring_token helper_outcome fs
        = (Except.ok t, [CredSource.envVar, CredSource.keyring])) ∧
    (env_token = none → keyring_token = none → ∀ lines pwline,
      helper_outcome = Except.ok lines →
      lines.find? (fun line => line.startsWith "password=") = some pwline →
      get_access_token cfg token_type env_token keyring_token helper_outcome fs
        = (Except.ok (pwline.replace "password=" ""),
           [CredSource.envVar, CredSource.keyring, CredSource.helper])) ∧
    (env_token = none → keyring_token = none →
      (get_git_credential helper_outcome).isOk = false →
      (token_type = "github" ∨ token_type = "gitlab" ∨ token_type = "gitea") →
      ∀ p contents, tokenPathFor cfg token_type = some p → fs p = some contents →
      get_access_token cfg token_type env_token keyring_token helper_outcome fs
        = (Except.ok (strTrim contents),
           [CredSource.envVar, CredSource.keyring, CredSource.helper,
            CredSource.tokenFile])) ∧
    (env_token = none → keyring_token = none →
      (get_git_credential helper_outcome).isOk = false →
      tokenPathFor cfg token_type = none →
      ∃ e, get_access_token cfg token_type env_token keyring_token helper_outcome fs
        = (Except.error e,
           [CredSource.envVar, CredSource.keyring, CredSource.helper,
            CredSource.tokenFile])) := by
  refine ⟨?_, ?_, ?_, ?_, ?_⟩
  · rintro t rfl
    rfl
  · rintro rfl t rfl
    rfl
  · rintro rfl rfl lines pwline rfl hfind
    simp [get_access_token, get_git_credential, parse_credential_output, hfind]
  · rintro rfl rfl hfail hbt p contents hpath hfs
    cases hgit : get_git_credential helper_outcome with
    | ok t => rw [hgit] at hfail; simp [Except.isOk, Except.toBool] at hfail
    | error e =>
      rcases hbt with hb | hb | hb <;> subst hb <;> simp [tokenPathFor] at hpath <;>
        simp [get_access_token, hgit, read_token_file, hpath, hfs]
  · rintro rfl rfl hfail hpath
    cases hgit : get_git_credential helper_outcome with
    | ok t => rw [hgit] at hfail; simp [Except.isOk, Except.toBool] at hfail
    | error e =>
      unfold tokenPathFor at hpath
      by_cases h1 : token_type = "github"
      · subst h1
        simp at hpath
        exact ⟨"No path for token file set",
          by simp [get_access_token, hgit, read_token_file, hpath]⟩
      · by_cases h2 : token_type = "gitlab"
        · subst h2
          simp at hpath
          exact ⟨"No path for token file set",
            by simp [get_access_token, hgit, read_token_file, hpath]⟩
        · by_cases h3 : token_type = "gitea"
          · subst h3
            simp at hpath
            exact ⟨"No path for token file set",
              by simp [get_access_token, hgit, read_token_file, hpath]⟩
          · exact ⟨"No token for " ++ token_type ++ " found",
              by simp [get_access_token, hgit, h1, h2, h3]⟩

/-- C3 witness: with the environment variable and secret store empty, a
failing helper, and a configured github token file holding `"  tok  "`,
resolution returns the trimmed contents after trying all four sources. -/
theorem C3_witness :
    get_access_token ⟨some "/p", none, none⟩ "github" none none (Except.error "helper failed")
        (fun _ => some "  tok  ")
      = (Except.ok "tok",
         [CredSource.envVar, CredSource.keyring, CredSource.helper, CredSource.tokenFile]) := by
  have h := (C3_credential_chain ⟨some "/p", none, none⟩ "github" none none
    (Except.error "helper failed") (fun _ => some "  tok  ")).2.2.2.1
    rfl rfl (by decide) (Or.inl rfl) "/p" "  tok  " (by decide) rfl
  have ht : strTrim "  tok  " = "tok" := by decide
  rw [h, ht]

/-- C4 (counterexample): ticks do not keep occurring under continuous
input.  Over a schedule where every poll returns a terminal event, a full
tick interval elapses since the last tick while the loop emits only
`Input` events — no `Tick` at all, for arbitrarily many further polls. -/
theorem C4_counterexample :
    (eventLoopRun ⟨0, 0⟩ (some 200 :: List.replicate 9 (some 0))).2
        = List.replicate 10 (200, Event.input) ∧
    TICK_RATE ≤ (eventLoopRun ⟨0, 0⟩ (some 200 :: List.replicate 9 (some 0))).1.now
      - (eventLoopRun ⟨0, 0⟩ (some 200 :: List.replicate 9 (some 0))).1.last_tick := by
  decide

/-- C4 (amended): (1) a `Tick` is emitted exactly when the poll times out
with no pending event — and then a full tick interval has always elapsed
since the last `Tick`; (2) with no input events, exactly one `Tick` is
emitted per 200 ms interval, never zero, never duplicates; (3) but when a
terminal event arrives in every poll, no `Tick` is ever emitted, however
many polls pass — there is no bounded minimum tick rate under continuous
input. -/
theorem C4_scheduler :
    (∀ (s : EventLoopState) (arrival : Option Nat), s.last_tick ≤ s.now →
      (((eventLoopStep s arrival).2.map Prod.snd = some Event.tick) ↔
        (pollTimesOut s arrival ∧
         TICK_RATE ≤ (eventLoopStep s arrival).1.now - s.last_tick))) ∧
    (∀ (n t : Nat), (eventLoopRun ⟨t, t⟩ (List.replicate n none)).2
      = (List.range n).map (fun i => (t + TICK_RATE * (i + 1), Event.tick))) ∧
    (∀ (n t : Nat), (eventLoopRun ⟨t, t⟩ (some TICK_RATE :: List.replicate n (some 0))).2
      = List.replicate (n + 1) (t + TICK_RATE, Event.input)) := by
  refine ⟨eventLoopStep_tick_iff, ?_, ?_⟩
  · intro n t
    rw [eventLoopRun_no_input]
  · intro n t
    rw [eventLoopRun_starved]

/-- C4 witness: from a fresh state, a poll with no event emits the `Tick`
at 200 ms. -/
theorem C4_witness :
    ((eventLoopStep ⟨0, 0⟩ none).2.map Prod.snd = some Event.tick) ↔
      (pollTimesOut ⟨0, 0⟩ none ∧
       TICK_RATE ≤ (eventLoopStep ⟨0, 0⟩ none).1.now - (0 : Nat)) :=
  C4_scheduler.1 ⟨0, 0⟩ none (by decide)

/-- C5: when the single envelope drained by a tick is
`ActiveRemoteResolved(X)`, the orchestrator makes exactly one
`RepositoryState.set` call with `X`, updates its in-memory active remote to
`X`, and issues exactly three dispatch calls — Issues, PullRequests,
Projects — regardless of the active view. -/
theorem C5_remote_change (ui : Ui) (X : String) (rest : List RepoData)
    (hbuf : ui.data_response_data = []) :
    (ui.tick (RepoData.activeRemote X :: rest)).2.2.set_calls = [(ui.repo_root, X)] ∧
    (ui.tick (RepoData.activeRemote X :: rest)).1.active_remote = some X ∧
    (ui.tick (RepoData.activeRemote X :: rest)).2.2.requests =
      [RequestType.issues, RequestType.pullRequests, RequestType.projects] :=
  tick_remote_change ui X rest hbuf

/-- C5 witness: delivering a concrete remote to the empty orchestrator. -/
theorem C5_witness :
    (uiEx.tick [RepoData.activeRemote "git@github.com:o/r.git"]).2.2.set_calls
        = [("/repo", "git@github.com:o/r.git")] ∧
    (uiEx.tick [RepoData.activeRemote "git@github.com:o/r.git"]).1.active_remote
        = some "git@github.com:o/r.git" ∧
    (uiEx.tick [RepoData.activeRemote "git@github.com:o/r.git"]).2.2.requests
        = [RequestType.issues, RequestType.pullRequests, RequestType.projects] :=
  C5_remote_change uiEx "git@github.com:o/r.git" [] rfl

/-- C6: for every request kind, a dispatch call made while the github
token is absent, or while no active remote is resolved, returns `Ok(())`
as a no-op: zero threads spawned, zero channel sends, and a single
info-level log line — never an error. -/
theorem C6_dispatch_noop (github_token active_remote : Option String) (rt : RequestType)
    (parses network_ok : Bool)
    (h : github_token = none ∨ active_remote = none) :
    (send_request github_token active_remote rt parses network_ok).1 = Except.ok () ∧
    (send_request github_token active_remote rt parses network_ok).2.threads_spawned = 0 ∧
    (send_request github_token active_remote rt parses network_ok).2.channel_sends = 0 ∧
    ∃ msg, (send_request github_token active_remote rt parses network_ok).2.logs
      = [(LogLevel.info, msg)] := by
  cases hg : github_token with
  | none => exact ⟨rfl, rfl, rfl, "Github token not set.", rfl⟩
  | some t =>
    cases ha : active_remote with
    | none => exact ⟨rfl, rfl, rfl, "No active remote set for repository.", rfl⟩
    | some r =>
      rw [hg, ha] at h
      rcases h with h | h <;> exact Option.noConfusion h

/-- C6 witness: a dispatch with no token and a resolved remote is a logged
no-op. -/
theorem C6_witness :
    (send_request none (some "git@github.com:o/r.git") RequestType.issues true true).1
        = Except.ok () ∧
    (send_request none (some "git@github.com:o/r.git")
        RequestType.issues true true).2.threads_spawned = 0 ∧
    (send_request none (some "git@github.com:o/r.git")
        RequestType.issues true true).2.channel_sends = 0 ∧
    ∃ msg, (send_request none (some "git@github.com:o/r.git")
        RequestType.issues true true).2.logs = [(LogLevel.info, msg)] :=
  C6_dispatch_noop none (some "git@github.com:o/r.git") RequestType.issues true true
    (Or.inl rfl)

/-- C7 (counterexample): idempotence fails at the `u8` bound.  In
`stack255` the panel `"b"` is the topmost entry (priority 255) and accepts
focus, yet selecting it twice yields a different stack than selecting it
once — the wrapped priority `(255 + 1) % 256 = 0` demotes the panel to the
bottom on the first call. -/
theorem C7_counterexample :
    (stack255.panels.getLast? = some (255, panelA, "b") ∧ panelA.accepts = true) ∧
    (((stack255.select_panel "b").1).select_panel "b").1 ≠ (stack255.select_panel "b").1 := by
  decide

/-- C7 (amended): on a well-formed stack whose topmost entry has priority
below 255 and accepts focus, selecting that panel twice in succession
yields exactly the same stack state — entries, name index and priorities —
as selecting it once. -/
theorem C7_select_idempotent (s : UiStack) (hp : Nat) (q : Panel) (nm : String)
    (hwf : s.WF) (hlast : s.panels.getLast? = some (hp, q, nm))
    (hacc : q.accepts = true) (hhp : hp < 255) :
    (((s.select_panel nm).1).select_panel nm).1 = (s.select_panel nm).1 :=
  select_topmost_idempotent hwf hlast hacc (by unfold u8Mod; omega)

/-- C7 witness: selecting the topmost panel of a two-panel stack twice. -/
theorem C7_witness :
    (((stackTwo.select_panel "b").1).select_panel "b").1 = (stackTwo.select_panel "b").1 :=
  C7_select_idempotent stackTwo 7 panelA "b" (by decide) (by decide) (by decide) (by decide)

/-- C8 (counterexample): the exit status is polled more than
`credential_attempts` times.  With the default 4 attempts and a child that
never exits, `try_wait` is invoked 5 times (one initial poll plus one after
each sleep), contradicting "polled at most credential_attempts times". -/
theorem C8_counterexample :
    ¬ ((wait_for_credential_output DEFAULT_CREDENTIAL_ATTEMPTS (fun _ => false)).2.polls
        ≤ DEFAULT_CREDENTIAL_ATTEMPTS) := by
  decide

/-- C8 (amended): waiting on the credential helper always terminates: the
exit status is polled at most `credential_attempts + 1` times (one initial
poll plus one after each of at most `credential_attempts` sleeps of
`credential_timeout` ms); the final poll's result is never examined, and
when none of the first `credential_attempts` polls reports an exit the
subprocess is killed and the wait returns a failure; a success implies
some examined poll reported an exit. -/
theorem C8_wait_bounded (attempts : Nat) (exited : Nat → Bool) :
    (wait_for_credential_output attempts exited).2.polls ≤ attempts + 1 ∧
    (wait_for_credential_output attempts exited).2.sleeps ≤ attempts ∧
    ((∀ i, i < attempts → exited i = false) →
      (wait_for_credential_output attempts exited).1 = false ∧
      (wait_for_credential_output attempts exited).2.killed = true) ∧
    ((wait_for_credential_output attempts exited).1 = true →
      ∃ i, i < attempts ∧ exited i = true) := by
  refine ⟨?_, ?_, ?_, ?_⟩
  · have := (waitLoop_counts exited attempts 0 ⟨1, 0, false⟩).1
    unfold wait_for_credential_output
    dsimp only at this
    omega
  · have := (waitLoop_counts exited attempts 0 ⟨1, 0, false⟩).2
    unfold wait_for_credential_output
    dsimp only at this
    omega
  · intro h
    unfold wait_for_credential_output
    rw [waitLoop_all_false exited attempts 0 _ (fun j hj => by simpa using h j hj)]
    exact ⟨rfl, rfl⟩
  · intro h
    obtain ⟨j, hj, hje⟩ := waitLoop_success exited attempts 0 _ h
    exact ⟨j, hj, by simpa using hje⟩

/-- C8 witness: the default configuration with a never-exiting child:
5 polls, 4 sleeps, killed, failure. -/
theorem C8_witness :
    (wait_for_credential_output DEFAULT_CREDENTIAL_ATTEMPTS (fun _ => false)).2.polls
        ≤ DEFAULT_CREDENTIAL_ATTEMPTS + 1 ∧
    (wait_for_credential_output DEFAULT_CREDENTIAL_ATTEMPTS (fun _ => false)).1 = false ∧
    (wait_for_credential_output DEFAULT_CREDENTIAL_ATTEMPTS (fun _ => false)).2.killed
        = true :=
  ⟨(C8_wait_bounded DEFAULT_CREDENTIAL_ATTEMPTS (fun _ => false)).1,
   ((C8_wait_bounded DEFAULT_CREDENTIAL_ATTEMPTS (fun _ => false)).2.2.1
      (fun i _ => rfl)).1,
   ((C8_wait_bounded DEFAULT_CREDENTIAL_ATTEMPTS (fun _ => false)).2.2.1
      (fun i _ => rfl)).2⟩

/-- C9: the `u8` priority arithmetic is unguarded: for a successful
`select_panel` the `get_highest_priority() + 1` computation overflows the
`u8` range exactly when the highest priority is 255 (and never below);
`normalize_priorities` overflows its `u8` index exactly when 256 live
panels are walked (and never for at most 255); and the orchestrator's
panel insertion (`open_remote_explorer`, and the `top_priority` of `tick`)
overflows exactly when the highest priority is 255. -/
theorem C9_u8_overflow :
    (∀ (s : UiStack) (pr : Nat) (panel : Panel) (enm nm : String),
      SortedKeys s.panels → (∀ kv ∈ s.panels, kv.1 < u8Mod) →
      hashGet nm s.panel_names = some pr →
      btreeGet pr s.panels = some (panel, enm) → panel.accepts = true →
      ((s.select_panel_full nm).2.2 = true ↔ s.get_highest_priority = 255)) ∧
    (∀ s : UiStack, s.panels.length = u8Mod → s.normalize_overflows = true) ∧
    (∀ s : UiStack, s.panels.length ≤ 255 → s.normalize_overflows = false) ∧
    (∀ ui : Ui, ui.open_remote_explorer_overflows = true ↔
      u8Mod ≤ ui.ui_stack.get_highest_priority + 1) := by
  refine ⟨?_, ?_, ?_, ?_⟩
  · intro s pr panel enm nm hs hb hn hent hacc
    have hlt : s.get_highest_priority < u8Mod := by
      rw [get_highest_eq_keyLast]
      unfold keyLast
      cases h : s.panels.getLast? with
      | none =>
        dsimp only
        unfold u8Mod
        omega
      | some kv =>
        dsimp only
        have hmem : kv ∈ s.panels := by
          have heq := List.dropLast_append_getLast? kv h
          rw [← heq]
          exact List.mem_append_right _ (List.mem_singleton_self kv)
        exact hb kv hmem
    rw [select_panel_flag hs hn hent hacc]
    simp only [decide_eq_true_eq]
    unfold u8Mod at hlt ⊢
    omega
  · intro s hlen
    rw [normalize_overflows_iff (by omega)]
    simp only [decide_eq_true_eq]
    refine ⟨?_, hlen⟩
    intro hnil
    rw [hnil] at hlen
    simp [u8Mod] at hlen
  · intro s hlen
    rw [normalize_overflows_iff (by unfold u8Mod; omega)]
    simp only [decide_eq_false_iff_not]
    rintro ⟨_, hl⟩
    rw [hl] at hlen
    unfold u8Mod at hlen
    omega
  · intro ui
    unfold Ui.open_remote_explorer_overflows
    simp

/-- C9 witness: at `stack255` the select arithmetic overflows; `stack256`
overflows normalization; `stackTwo` (highest 7) does not overflow. -/
theorem C9_witness :
    (stack255.select_panel_full "b").2.2 = true ∧
    stack256.normalize_overflows = true ∧
    stackTwo.normalize_overflows = false := by
  refine ⟨?_, ?_, ?_⟩
  · exact (C9_u8_overflow.1 stack255 255 panelA "b" "b" (by unfold SortedKeys; decide)
      (by decide) (by decide) (by decide) (by decide)).mpr (by decide)
  · exact C9_u8_overflow.2.1 stack256 (by simp [stack256, u8Mod])
  · exact C9_u8_overflow.2.2.1 stackTwo (by decide)

/-- C10: the remote-picker modal consumes every key: `handle_input`
returns `true` for every key event; while it is the topmost panel the
dispatch loop stops at it, so no key reaches a lower panel or the global
commands; and its quit flag is set exactly by Escape or by an Enter whose
remote selection succeeds (it is reaped on the next tick). -/
theorem C10_modal_consumes_keys :
    (∀ (re : RemoteExplorer) (key : KeyEvent) (oracle : GitOracle),
      (re.handle_input key oracle).2 = true) ∧
    (∀ (re : RemoteExplorer) (oracle : GitOracle) (rest : List (KeyEvent → Bool))
        (key : KeyEvent),
      ui_handle_input_model ((fun k => (re.handle_input k oracle).2) :: rest) key
        = (true, 1, false)) ∧
    (∀ (re : RemoteExplorer) (key : KeyEvent) (oracle : GitOracle),
      ((re.handle_input key oracle).1.quit = true ↔
        (re.quit = true ∨ key = ⟨KeyCode.esc, KeyMod.noMod⟩ ∨
         (key = ⟨KeyCode.enter, KeyMod.noMod⟩ ∧ SelectOk re oracle)))) := by
  refine ⟨handle_input_consumes, ?_, handle_input_quit_iff⟩
  intro re oracle rest key
  exact ui_dispatch_top rest key _ (handle_input_consumes re key oracle)

end Lazyissues

